import Mathlib

/-!
# Verification of the minesweeper CNF / DPLL core

A shallow embedding of the propositional-logic core of the repository
(`cnf.py`, `dpll.py`) and of the clause-building routines of the agent
(`agent.py`), together with theorems settling the specification claims.

Conventions of the embedding:
* Python `Literal` / `Clause` / `Cnf` objects become Lean structures.
  A `Clause` stores its literal *list* exactly as the Python constructor
  does (the list is not deduplicated; Python's set-based `__eq__` is the
  separate operation `Clause.setEq`).
* Python `set`s of clauses become lists without `setEq`-duplicates;
  `memS` is the membership test of such a set (`in`, via `__eq__`) and
  `insertS` is `set.add`.
* Assignments (`dict[str, bool]` covering all relevant symbols) become
  total functions `String → Bool`; the dictionaries produced by `dpll`
  become association lists queried with `lookupLast` (later entries
  override earlier ones, as in a Python dict comprehension).
* The `while True` fixpoint loop of `unit_resolution` and the
  `LifoQueue` loop of `dfs` are embedded with an explicit bound on the
  number of iterations; the bounds are proved sufficient
  (`unitResolution_stable`, and the completeness theorem for `dpll`),
  so the embedded functions agree with the unbounded Python loops.
-/

/-- Python `cnf.Literal`: a symbol with a polarity. -/
structure Literal where
  symbol : String
  polarity : Bool
deriving DecidableEq, Repr

/-- `Literal.negate`: same symbol, flipped polarity. -/
def Literal.negate (l : Literal) : Literal := ⟨l.symbol, !l.polarity⟩

/-- Lexicographic comparison of character lists by code point — the
order Python `<` uses on strings (and the order of Lean's `String.lt`). -/
def charListLt : List Char → List Char → Bool
  | [], [] => false
  | [], _ :: _ => true
  | _ :: _, [] => false
  | a :: as, b :: bs =>
    if a.toNat < b.toNat then true
    else if b.toNat < a.toNat then false
    else charListLt as bs

/-- Python `<` on strings. -/
def strLt (a b : String) : Bool := charListLt a.data b.data

/-- Python `Literal.__lt__`: by symbol, then by polarity (`False < True`). -/
def Literal.lt (a b : Literal) : Bool :=
  if strLt a.symbol b.symbol then true
  else if strLt b.symbol a.symbol then false
  else (!a.polarity) && b.polarity

/-- Python `cnf.Clause`: the constructor stores the literal list as given. -/
structure Clause where
  literals : List Literal
deriving DecidableEq, Repr

/-- Membership of a literal in a list, by value equality
(Python `in`, backed by `Literal.__eq__`). -/
def memLit (a : Literal) : List Literal → Bool :=
  fun ls => ls.any (fun x => decide (x = a))

/-- Python `Clause.__eq__`: set-based equality of the literal lists. -/
def Clause.setEq (c1 c2 : Clause) : Bool :=
  c1.literals.all (fun ℓ => memLit ℓ c2.literals) &&
    c2.literals.all (fun ℓ => memLit ℓ c1.literals)

/-- Membership of a clause in a Python `set` of clauses
(`clause in s`, via `Clause.__eq__`). -/
def memS (c : Clause) (s : List Clause) : Bool :=
  s.any (fun d => Clause.setEq c d)

/-- Python `set.add`: insert a clause unless an equal clause is present. -/
def insertS (s : List Clause) (c : Clause) : List Clause :=
  if memS c s then s else s ++ [c]

/-- Fold a list of clauses into a Python `set` (dedup by `__eq__`). -/
def dedupS (l : List Clause) : List Clause := l.foldl insertS []

/-- Union of two Python `set`s of clauses (`s | t`). -/
def unionS (s t : List Clause) : List Clause := t.foldl insertS s

/-- The symbol → polarity dictionary that `Clause._get_literal_polarities`
builds: the value for a symbol is the polarity of the *last* literal with
that symbol in the clause's literal list. -/
def Clause.lastLit (cl : Clause) (s : String) : Option Literal :=
  cl.literals.reverse.find? (fun ℓ => ℓ.symbol == s)

/-- Satisfaction of one clause, exactly as `Cnf.check_model`'s inner
`check_against_clause` computes it: some symbol of the clause whose
dictionary polarity (last occurrence) matches the assignment. -/
def checkClause (m : String → Bool) (cl : Clause) : Bool :=
  cl.literals.any (fun ℓ =>
    match cl.lastLit ℓ.symbol with
    | some ℓ2 => m ℓ2.symbol == ℓ2.polarity
    | none => false)

/-- Python `cnf.Cnf`: a set of clauses. -/
structure Cnf where
  clauses : List Clause
deriving Repr

/-- The `Cnf` constructor (`self.clauses = set(clauses)`). -/
def Cnf.mk' (cs : List Clause) : Cnf := ⟨dedupS cs⟩

/-- `Cnf.check_model`: every clause is satisfied. -/
def Cnf.checkModel (sent : Cnf) (m : String → Bool) : Bool :=
  sent.clauses.all (fun cl => checkClause m cl)

/-- All symbols of a sentence (`Cnf.get_symbols`, as a list with
possible repetitions; only membership matters). -/
def Cnf.symbolsList (sent : Cnf) : List String :=
  sent.clauses.flatMap (fun cl => cl.literals.map (fun ℓ => ℓ.symbol))

/-- Strip leading and trailing whitespace (Python `str.strip`). -/
def trimChars (cs : List Char) : List Char :=
  ((cs.dropWhile Char.isWhitespace).reverse.dropWhile Char.isWhitespace).reverse

/-- Left-to-right scan splitting a character list at every occurrence of
the (nonempty) separator, as Python `str.split(sep)` does.  The `Nat`
argument bounds the recursion; `splitOnList` supplies a sufficient bound
(every step consumes at least one character). -/
def splitGo (sep : List Char) : Nat → List Char → List Char → List (List Char)
  | 0, acc, rest => [acc.reverse ++ rest]
  | fuel+1, acc, cs =>
    if sep.isPrefixOf cs then
      acc.reverse :: splitGo sep fuel [] (cs.drop sep.length)
    else
      match cs with
      | [] => [acc.reverse]
      | c :: rest => splitGo sep fuel (c :: acc) rest

/-- Python `s.split(sep)` for a nonempty separator. -/
def splitOnList (sep : List Char) (cs : List Char) : List (List Char) :=
  splitGo sep (cs.length + 1) [] cs

/-- Python `cnf.l`: parse a literal, `!` marking negative polarity. -/
def lC (s : String) : Literal :=
  match s.data with
  | '!' :: rest => ⟨String.mk rest, false⟩
  | _ => ⟨s, true⟩

/-- Python `cnf.c`: parse a clause, `"FALSE"` denoting the empty clause. -/
def cC (s : String) : Clause :=
  if s = "FALSE" then ⟨[]⟩
  else ⟨((splitOnList ['|', '|'] s.data).map
      (fun cs => lC (String.mk (trimChars cs))))⟩

/-- Python `cnf.sentence`: parse a CNF sentence from clause strings. -/
def sentenceC (ss : List String) : Cnf :=
  Cnf.mk' (ss.map (fun s => cC (String.mk (trimChars s.data))))


/-- The literal loop of `dpll.unit_resolve`: `none` once a literal of a
long clause is itself a unit clause of `U`; otherwise the literals whose
negations are unit clauses of `U` are removed.  The flag is Python's
`len(clause) > 1`, computed once from the whole clause. -/
def resolveLits (U : List Clause) (isLong : Bool) : List Literal → Option (List Literal)
  | [] => some []
  | ℓ :: rest =>
    if isLong && memS ⟨[ℓ]⟩ U then none
    else
      match resolveLits U isLong rest with
      | none => none
      | some ps => some (if memS ⟨[ℓ.negate]⟩ U then ps else ℓ :: ps)

/-- `dpll.unit_resolve`. -/
def unitResolve (U : List Clause) (cl : Clause) : Option Clause :=
  (resolveLits U (decide (1 < cl.literals.length)) cl.literals).map Clause.mk

/-- One clause of the body of `unit_resolution`'s round: resolve it and
file the result into the new unit- or regular-clause set. -/
def urStepInsert (U : List Clause) (acc : List Clause × List Clause) (cl : Clause) :
    List Clause × List Clause :=
  match unitResolve U cl with
  | none => acc
  | some c =>
    if c.literals.length = 1 then (insertS acc.1 c, acc.2) else (acc.1, insertS acc.2 c)

/-- One round of `unit_resolution`'s `while` loop: resolve every clause
of `regular_clauses | unit_clauses` against the current unit set,
starting from `new_unit_clauses = set(unit_clauses)`, `new_clauses = {}`. -/
def urStep (U G : List Clause) : List Clause × List Clause :=
  (unionS G U).foldl (urStepInsert U) (U, [])

/-- The `while True` loop of `unit_resolution`: repeat rounds until the
unit-clause set stops growing; on exit return the (old) unit clauses
with the round's regular clauses.  The `Nat` argument bounds the number
of rounds; `unitResolution` supplies a bound that is proved sufficient
in `unitResolution_stable`. -/
def urLoop : Nat → List Clause × List Clause → List Clause × List Clause
  | 0, p => p
  | fuel+1, (U, G) =>
    let p := urStep U G
    if p.1.length = U.length then (U, p.2) else urLoop fuel p

/-- All literals occurring in a clause list. -/
def allLitsOf (cs : List Clause) : List Literal := cs.flatMap (fun c => c.literals)

/-- Round bound for `unit_resolution`: the unit set grows strictly each
non-final round and (beyond the input units) only by singleton clauses
over the input's literals, so this many rounds always reach the fixpoint. -/
def urFuel (U G : List Clause) : Nat := (allLitsOf (U ++ G)).dedup.length + 2

/-- `dpll.unit_resolution` (the entry `set(...)` conversions included). -/
def unitResolution (U G : List Clause) : List Clause × List Clause :=
  urLoop (urFuel (dedupS U) (dedupS G)) (dedupS U, dedupS G)

/-- Python dict lookup on an association list built left to right:
later entries override earlier ones. -/
def lookupLast : List (String × Bool) → String → Option Bool
  | [], _ => none
  | p :: rest, s =>
    match lookupLast rest s with
    | some v => some v
    | none => if p.1 == s then some p.2 else none

/-- The model dictionary `{lit.get_symbol(): lit.get_polarity() for lit in state}`. -/
def modelList (state : List Literal) : List (String × Bool) :=
  state.map (fun ℓ => (ℓ.symbol, ℓ.polarity))

/-- A dictionary as a total assignment (only symbols present in the
dictionary are ever queried by the call sites). -/
def modelFun (al : List (String × Bool)) : String → Bool :=
  fun s => (lookupLast al s).getD false

/-- Insert a string into an ascending list (auxiliary for `sortStrings`). -/
def insertSorted (x : String) : List String → List String
  | [] => [x]
  | y :: ys => if strLt x y then x :: y :: ys else y :: insertSorted x ys

/-- Python `sorted` on strings (by code points, same order as Lean `<`). -/
def sortStrings (l : List String) : List String := l.foldr insertSorted []

/-- `SatisfiabilitySearchSpace.__init__`: the signature is the sorted
set of the sentence's symbols. -/
def signatureOf (sent : Cnf) : List String := sortStrings sent.symbolsList.dedup

/-- `SatisfiabilitySearchSpace.is_goal_state`: complete states that
satisfy the sentence. -/
def isGoal (sig : List String) (sent : Cnf) (state : List Literal) : Bool :=
  if state.length < sig.length then false
  else sent.checkModel (modelFun (modelList state))

/-- `DpllSearchSpace.__init__`'s partition of the sentence's clauses
into unit clauses and regular clauses. -/
def partitionClauses (sent : Cnf) : List Clause × List Clause :=
  sent.clauses.foldl
    (fun acc cl =>
      if cl.literals.length = 1 then (insertS acc.1 cl, acc.2) else (acc.1, insertS acc.2 cl))
    ([], [])

/-- `DpllSearchSpace.__init__`: `self.unit_clauses, self.regular_clauses`. -/
def dpllBase (sent : Cnf) : List Clause × List Clause :=
  unitResolution (partitionClauses sent).1 (partitionClauses sent).2

/-- The `for uc in unit_clauses` scan of `DpllSearchSpace.get_successors`
looking for a unit clause over the next variable (the last match wins). -/
def forcedLit (u2 : List Clause) (v : String) : Option Literal :=
  (u2.reverse.find? (fun uc =>
    match uc.literals.head? with
    | some ℓ => ℓ.symbol == v
    | none => false)).bind (fun uc => uc.literals.head?)

/-- `DpllSearchSpace.get_successors`. -/
def dpllSuccessors (sig : List String) (baseU baseG : List Clause) (state : List Literal) :
    List (List Literal) :=
  if state.length = sig.length then []
  else
    let p := unitResolution (unionS baseU (state.map (fun ℓ => ⟨[ℓ]⟩))) baseG
    if memS ⟨[]⟩ p.2 then []
    else
      match sig[state.length]? with
      | none => []
      | some v =>
        match forcedLit p.1 v with
        | some ℓ => [state ++ [ℓ]]
        | none => [state ++ [⟨v, false⟩], state ++ [⟨v, true⟩]]

/-- `util.dfs` on the DPLL search space: a LIFO stack of states, the
successors of a popped state pushed in order (so the last one is popped
first).  The `Nat` argument bounds the number of pops; `dpll` supplies
a bound proved sufficient by the completeness theorem. -/
def dfsLoop (sig : List String) (sent : Cnf) (baseU baseG : List Clause) :
    Nat → List (List Literal) → Option (List Literal)
  | 0, _ => none
  | _+1, [] => none
  | fuel+1, s :: rest =>
    if isGoal sig sent s then some s
    else dfsLoop sig sent baseU baseG fuel ((dpllSuccessors sig baseU baseG s).reverse ++ rest)

/-- `dpll.dpll`: run the depth-first search and turn the goal state (if
any) into a model dictionary. -/
def dpll (sent : Cnf) : Option (List (String × Bool)) :=
  match dfsLoop (signatureOf sent) sent (dpllBase sent).1 (dpllBase sent).2
      (3 ^ ((signatureOf sent).length + 1)) [[]] with
  | some st => some (modelList st)
  | none => none

/-- The toy sentence `(A || B) && (!A || C) && (!B || C)` of the spec. -/
def toySent : Cnf := sentenceC ["A || B", "!A || C", "!B || C"]

/-- The toy sentence augmented with the unit clause `!C`. -/
def toySentNegC : Cnf := sentenceC ["A || B", "!A || C", "!B || C", "!C"]


/-- The mine variable of a cell, `f"B_{r}_{c}"` (Python's decimal
formatting of the coordinates is Lean's `toString` on `Nat`). -/
def encodeCell (rc : Nat × Nat) : String :=
  "B_" ++ toString rc.1 ++ "_" ++ toString rc.2

/-- `OptimizedAgent.at_most_clauses`, composed with the `cnf.c` parse
that `next_move` applies to each emitted string: one clause of negated
mine literals per `(k+1)`-subset of the neighbor list (the code builds
the string `"!B_r_c || ..."` for each `itertools.combinations` tuple;
parsing such a string yields exactly the clause built here).  The row
and column of the reporting cell are unused, as in the source. -/
def atMostClauses (row col : Nat) (k : Nat) (cells : List (Nat × Nat)) : List Clause :=
  (List.sublistsLen (k+1) cells).map
    (fun combo => ⟨combo.map (fun rc => ⟨encodeCell rc, false⟩)⟩)

/-- `OptimizedAgent.at_least_clauses`, composed with the `cnf.c` parse:
one clause of positive mine literals per `(n-k+1)`-subset of the
`n`-element neighbor list. -/
def atLeastClauses (row col : Nat) (k : Nat) (cells : List (Nat × Nat)) : List Clause :=
  (List.sublistsLen (cells.length - k + 1) cells).map
    (fun combo => ⟨combo.map (fun rc => ⟨encodeCell rc, true⟩)⟩)

/-- The Python classes that appear in `Reveal.__eq__`. -/
inductive PyClassId
  | revealClass
  | randomRevealClass
deriving DecidableEq, Repr

/-- The two kinds of values compared in `Reveal.__eq__`: the string
`type(other).__name__` and the class object `Reveal`. -/
inductive PyVal
  | pyStr (s : String)
  | pyType (c : PyClassId)
deriving DecidableEq, Repr

/-- Python `==` on these values: strings compare by content, classes by
identity, and a comparison of a string with a class object is `False`
(`str.__eq__` returns `NotImplemented` and the fallback is identity). -/
def pyEq : PyVal → PyVal → Bool
  | .pyStr a, .pyStr b => a == b
  | .pyType a, .pyType b => a == b
  | _, _ => false

/-- `agent.Reveal`: a move naming the cell to reveal. -/
structure Reveal where
  row : Int
  column : Int
deriving DecidableEq, Repr

/-- `Reveal.__eq__` applied to another `Reveal`: the source compares
`type(other).__name__` — the *string* `"Reveal"` — with the class
object `Reveal`, and then the coordinates (short-circuited by `and`). -/
def Reveal.eq (self other : Reveal) : Bool :=
  pyEq (.pyStr "Reveal") (.pyType .revealClass) &&
    self.row == other.row && self.column == other.column

/-- Insert a literal into an ascending list (auxiliary for `sortLits`). -/
def insertLitSorted (x : Literal) : List Literal → List Literal
  | [] => [x]
  | y :: ys => if Literal.lt x y then x :: y :: ys else y :: insertLitSorted x ys

/-- Python `sorted` on literals, by `Literal.__lt__`. -/
def sortLits (l : List Literal) : List Literal := l.foldr insertLitSorted []

/-- The tuple that `Clause.__hash__` feeds to `hash`:
`tuple(sorted(self.literals))`. -/
def hashInput (cl : Clause) : List Literal := sortLits cl.literals


/-- Naive clause satisfaction: some literal of the list holds under the
assignment.  It agrees with `checkClause` on clauses that do not list
both polarities of a symbol (`checkClause_of_consistent`). -/
def anyLit (m : String → Bool) (cl : Clause) : Bool :=
  cl.literals.any (fun ℓ => m ℓ.symbol == ℓ.polarity)

/-- A clause is consistent when its literal list does not contain the
same symbol with both polarities (it may contain duplicate literals). -/
def consistentB (cl : Clause) : Bool :=
  cl.literals.all (fun a =>
    cl.literals.all (fun b => (a.symbol != b.symbol) || (a.polarity == b.polarity)))

/-- Satisfaction of every clause of a clause set. -/
def allSatB (m : String → Bool) (cs : List Clause) : Bool :=
  cs.all (fun cl => checkClause m cl)

/-- A clause list without `setEq`-duplicates (the invariant of the
lists representing Python sets of clauses). -/
def nodupS (s : List Clause) : Prop :=
  s.Pairwise (fun a b => Clause.setEq a b = false)

/-- A reachable DPLL search state: its literals decide exactly the
first `st.length` symbols of the signature, in order. -/
def ValidState (sent : Cnf) (st : List Literal) : Prop :=
  st.map Literal.symbol = (signatureOf sent).take st.length

/-- An assignment agrees with the decisions of a search state. -/
def agreesM (m : String → Bool) (st : List Literal) : Prop :=
  ∀ ℓ ∈ st, m ℓ.symbol = ℓ.polarity

/-- Termination measure of the DFS stack: every pop strictly decreases
it, and it starts at `3 ^ (signature length + 1)`. -/
def stackMeasure (sig : List String) (stack : List (List Literal)) : Nat :=
  (stack.map (fun s => 3 ^ (sig.length + 1 - s.length))).sum

/-- Invariant of `unit_resolution`'s loop state relative to the initial
unit set `U0` and the literals `L` of the initial clauses: the unit set
is `U0` extended by derived singleton clauses, duplicate-free, and all
literals stay inside `L`. -/
def UrInv (U0 : List Clause) (L : List Literal) (p : List Clause × List Clause) : Prop :=
  nodupS p.1 ∧ (∃ E, p.1 = U0 ++ E ∧ ∀ c ∈ E, c.literals.length = 1) ∧
    (∀ c ∈ p.1, ∀ ℓ ∈ c.literals, ℓ ∈ L) ∧
    (∀ c ∈ p.2, ∀ ℓ ∈ c.literals, ℓ ∈ L)

/-! ### Lemmas about the clause-set operations -/

theorem memLit_iff {a : Literal} {ls : List Literal} : memLit a ls = true ↔ a ∈ ls := by
  constructor
  · intro h
    rcases List.any_eq_true.1 h with ⟨x, hx, he⟩
    exact (of_decide_eq_true he) ▸ hx
  · intro h
    exact List.any_eq_true.2 ⟨a, h, decide_eq_true rfl⟩

theorem setEq_iff {c d : Clause} :
    Clause.setEq c d = true ↔
      ((∀ x ∈ c.literals, x ∈ d.literals) ∧ ∀ x ∈ d.literals, x ∈ c.literals) := by
  simp [Clause.setEq, List.all_eq_true, memLit_iff]

theorem setEq_refl (c : Clause) : Clause.setEq c c = true := by
  simp [setEq_iff]

theorem setEq_symm {c d : Clause} : Clause.setEq c d = Clause.setEq d c := by
  by_cases h : Clause.setEq c d = true
  · rw [h]; exact (setEq_iff.2 ⟨(setEq_iff.1 h).2, (setEq_iff.1 h).1⟩).symm
  · by_cases h2 : Clause.setEq d c = true
    · exact absurd (setEq_iff.2 ⟨(setEq_iff.1 h2).2, (setEq_iff.1 h2).1⟩) h
    · rw [Bool.eq_false_iff.2 h, Bool.eq_false_iff.2 h2]

theorem memS_iff {c : Clause} {s : List Clause} :
    memS c s = true ↔ ∃ d ∈ s, Clause.setEq c d = true := by
  simp [memS, List.any_eq_true]

theorem insertS_eq_or (s : List Clause) (c : Clause) :
    insertS s c = s ∨ insertS s c = s ++ [c] := by
  unfold insertS; split <;> simp

theorem mem_insertS {x : Clause} {s : List Clause} {c : Clause} (h : x ∈ insertS s c) :
    x ∈ s ∨ x = c := by
  rcases insertS_eq_or s c with he | he <;> rw [he] at h
  · exact Or.inl h
  · rcases List.mem_append.1 h with h1 | h1
    · exact Or.inl h1
    · exact Or.inr (List.mem_singleton.1 h1)

theorem subset_insertS (s : List Clause) (c : Clause) : s ⊆ insertS s c := by
  rcases insertS_eq_or s c with he | he <;> rw [he]
  · exact fun _ h => h
  · exact fun _ h => List.mem_append_left _ h

theorem exists_setEq_insertS (s : List Clause) (c : Clause) :
    ∃ d ∈ insertS s c, Clause.setEq d c = true := by
  unfold insertS; split
  · next h =>
    rcases memS_iff.1 h with ⟨d, hd, hde⟩
    exact ⟨d, hd, setEq_symm ▸ hde⟩
  · exact ⟨c, List.mem_append_right _ (List.mem_singleton.2 rfl), setEq_refl c⟩

theorem foldl_insertS_mem {x : Clause} :
    ∀ (items : List Clause) (acc : List Clause),
      x ∈ items.foldl insertS acc → x ∈ acc ∨ x ∈ items
  | [], acc, h => Or.inl h
  | i :: is, acc, h => by
    rcases foldl_insertS_mem is (insertS acc i) h with h1 | h1
    · rcases mem_insertS h1 with h2 | h2
      · exact Or.inl h2
      · exact Or.inr (h2 ▸ List.mem_cons_self _ _)
    · exact Or.inr (List.mem_cons_of_mem _ h1)

theorem subset_foldl_insertS :
    ∀ (items : List Clause) (acc : List Clause), acc ⊆ items.foldl insertS acc
  | [], _ => fun _ h => h
  | i :: is, acc => fun x h =>
    subset_foldl_insertS is (insertS acc i) (subset_insertS acc i h)

theorem exists_setEq_foldl_insertS {c : Clause} :
    ∀ (items : List Clause) (acc : List Clause), c ∈ items →
      ∃ d ∈ items.foldl insertS acc, Clause.setEq d c = true
  | [], _, h => absurd h (List.not_mem_nil c)
  | i :: is, acc, h => by
    rcases List.mem_cons.1 h with h1 | h1
    · subst h1
      rcases exists_setEq_insertS acc c with ⟨d, hd, hde⟩
      exact ⟨d, subset_foldl_insertS is _ hd, hde⟩
    · exact exists_setEq_foldl_insertS is (insertS acc i) h1

theorem mem_dedupS {x : Clause} {l : List Clause} (h : x ∈ dedupS l) : x ∈ l := by
  rcases foldl_insertS_mem l [] h with h1 | h1
  · exact absurd h1 (List.not_mem_nil x)
  · exact h1

theorem exists_setEq_dedupS {c : Clause} {l : List Clause} (h : c ∈ l) :
    ∃ d ∈ dedupS l, Clause.setEq d c = true :=
  exists_setEq_foldl_insertS l [] h

theorem mem_unionS {x : Clause} {s t : List Clause} (h : x ∈ unionS s t) :
    x ∈ s ∨ x ∈ t :=
  foldl_insertS_mem t s h

theorem subset_unionS_left (s t : List Clause) : s ⊆ unionS s t :=
  subset_foldl_insertS t s

theorem exists_setEq_unionS {c : Clause} {s t : List Clause} (h : c ∈ t) :
    ∃ d ∈ unionS s t, Clause.setEq d c = true :=
  exists_setEq_foldl_insertS t s h

/-! ### Lemmas about clause satisfaction (`check_model` semantics) -/

theorem lastLit_mem {cl : Clause} {s : String} {ℓ : Literal}
    (h : cl.lastLit s = some ℓ) : ℓ ∈ cl.literals ∧ ℓ.symbol = s := by
  have h1 := List.mem_of_find?_eq_some h
  have h2 := List.find?_some h
  exact ⟨List.mem_reverse.1 h1, by simpa using h2⟩

theorem lastLit_self {cl : Clause} {ℓ ℓ2 : Literal}
    (h : cl.lastLit ℓ.symbol = some ℓ2) : cl.lastLit ℓ2.symbol = some ℓ2 := by
  have hs := (lastLit_mem h).2
  unfold Clause.lastLit at h ⊢
  rw [hs]
  exact h

theorem checkClause_iff {m : String → Bool} {cl : Clause} :
    checkClause m cl = true ↔
      ∃ ℓ, cl.lastLit ℓ.symbol = some ℓ ∧ m ℓ.symbol = ℓ.polarity := by
  constructor
  · intro h
    rcases List.any_eq_true.1 h with ⟨ℓ, hmem, hcond⟩
    rcases hlast : cl.lastLit ℓ.symbol with _ | ℓ2
    · rw [hlast] at hcond; simp at hcond
    · rw [hlast] at hcond
      simp only [beq_iff_eq] at hcond
      exact ⟨ℓ2, lastLit_self hlast, hcond⟩
  · intro ⟨ℓ, hlast, hm⟩
    refine List.any_eq_true.2 ⟨ℓ, (lastLit_mem hlast).1, ?_⟩
    rw [hlast]
    simp [hm]

theorem find?_filter_of_find? {α : Type} {p q : α → Bool} :
    ∀ {l : List α} {a : α}, l.find? q = some a → p a = true →
      (l.filter p).find? q = some a
  | [], a, h, _ => by simp at h
  | x :: t, a, h, hp => by
    by_cases hqx : q x = true
    · rw [List.find?_cons_of_pos _ hqx] at h
      have hxa : x = a := by injection h
      subst hxa
      rw [List.filter_cons_of_pos hp, List.find?_cons_of_pos _ hqx]
    · rw [List.find?_cons_of_neg _ (by simpa using hqx)] at h
      by_cases hpx : p x = true
      · rw [List.filter_cons_of_pos hpx, List.find?_cons_of_neg _ (by simpa using hqx)]
        exact find?_filter_of_find? h hp
      · rw [List.filter_cons_of_neg (by simpa using hpx)]
        exact find?_filter_of_find? h hp

theorem lastLit_filter {cl : Clause} {p : Literal → Bool} {s : String} {ℓ : Literal}
    (h : cl.lastLit s = some ℓ) (hp : p ℓ = true) :
    Clause.lastLit ⟨cl.literals.filter p⟩ s = some ℓ := by
  unfold Clause.lastLit at h ⊢
  rw [← List.filter_reverse]
  exact find?_filter_of_find? h hp

theorem checkClause_filter {m : String → Bool} {cl : Clause} {p : Literal → Bool}
    (hsat : checkClause m cl = true)
    (hdrop : ∀ ℓ ∈ cl.literals, p ℓ = false → ¬(m ℓ.symbol = ℓ.polarity)) :
    checkClause m ⟨cl.literals.filter p⟩ = true := by
  rcases checkClause_iff.1 hsat with ⟨ℓ, hlast, hm⟩
  have hmem : ℓ ∈ cl.literals := (lastLit_mem hlast).1
  have hp : p ℓ = true := by
    by_contra hcon
    exact hdrop ℓ hmem (Bool.not_eq_true _ ▸ hcon) hm
  exact checkClause_iff.2 ⟨ℓ, lastLit_filter hlast hp, hm⟩

theorem checkClause_mem {m : String → Bool} {cl : Clause} {ℓ : Literal}
    (hmem : ℓ ∈ cl.literals) (hlast : cl.lastLit ℓ.symbol = some ℓ)
    (hm : m ℓ.symbol = ℓ.polarity) : checkClause m cl = true :=
  checkClause_iff.2 ⟨ℓ, hlast, hm⟩

theorem consistentB_iff {cl : Clause} :
    consistentB cl = true ↔
      ∀ a ∈ cl.literals, ∀ b ∈ cl.literals, a.symbol = b.symbol → a.polarity = b.polarity := by
  simp [consistentB, List.all_eq_true]
  constructor
  · intro h a ha b hb hs
    rcases h a ha b hb with h1 | h1
    · exact absurd hs (by simpa using h1)
    · simpa using h1
  · intro h a ha b hb
    by_cases hs : a.symbol = b.symbol
    · exact Or.inr (by simpa using h a ha b hb hs)
    · exact Or.inl (by simpa using hs)

theorem checkClause_of_consistent {m : String → Bool} {cl : Clause}
    (hc : consistentB cl = true) : checkClause m cl = anyLit m cl := by
  by_cases h : checkClause m cl = true
  · rcases checkClause_iff.1 h with ⟨ℓ, hlast, hm⟩
    rw [h]
    exact (List.any_eq_true.2 ⟨ℓ, (lastLit_mem hlast).1, by simp [hm]⟩).symm
  · by_cases h2 : anyLit m cl = true
    · exfalso
      apply h
      rcases List.any_eq_true.1 h2 with ⟨ℓ, hmem, hml⟩
      simp only [beq_iff_eq] at hml
      rcases hlast : cl.lastLit ℓ.symbol with _ | ℓ2
      · exact absurd (List.find?_eq_none.1 hlast ℓ (List.mem_reverse.2 hmem)) (by simp)
      · have hmem2 := lastLit_mem hlast
        have hpol : ℓ.polarity = ℓ2.polarity :=
          consistentB_iff.1 hc ℓ hmem ℓ2 hmem2.1 hmem2.2.symm
        exact checkClause_iff.2
          ⟨ℓ2, lastLit_self hlast, by rw [hmem2.2, hml, hpol]⟩
    · rw [Bool.eq_false_iff.2 h, Bool.eq_false_iff.2 h2]

theorem anyLit_of_subset {m : String → Bool} {c d : Clause}
    (hsub : ∀ x ∈ c.literals, x ∈ d.literals) (h : anyLit m c = true) :
    anyLit m d = true := by
  rcases List.any_eq_true.1 h with ⟨ℓ, hmem, hml⟩
  exact List.any_eq_true.2 ⟨ℓ, hsub ℓ hmem, hml⟩

theorem checkClause_congr {m : String → Bool} {c d : Clause}
    (hc : consistentB c = true) (hd : consistentB d = true)
    (he : Clause.setEq c d = true) : checkClause m c = checkClause m d := by
  rw [checkClause_of_consistent hc, checkClause_of_consistent hd]
  rcases setEq_iff.1 he with ⟨h1, h2⟩
  by_cases h : anyLit m c = true
  · rw [h, anyLit_of_subset h1 h]
  · by_cases h3 : anyLit m d = true
    · exact absurd (anyLit_of_subset h2 h3) h
    · rw [Bool.eq_false_iff.2 h, Bool.eq_false_iff.2 h3]

theorem consistentB_of_subset {c d : Clause}
    (hsub : ∀ x ∈ c.literals, x ∈ d.literals) (hd : consistentB d = true) :
    consistentB c = true :=
  consistentB_iff.2 (fun a ha b hb => consistentB_iff.1 hd a (hsub a ha) b (hsub b hb))

theorem setEq_empty_iff {d : Clause} :
    Clause.setEq ⟨[]⟩ d = true ↔ d.literals = [] := by
  rw [setEq_iff]
  constructor
  · intro ⟨_, h2⟩
    refine List.eq_nil_iff_forall_not_mem.2 (fun x hx => ?_)
    have := h2 x hx
    simp at this
  · intro h
    exact ⟨fun x hx => by simp at hx, fun x hx => by rw [h] at hx; simp at hx⟩

theorem checkClause_empty (m : String → Bool) : checkClause m ⟨[]⟩ = false := rfl

theorem checkClause_allEq {m : String → Bool} {u : Clause} {a : Literal}
    (hne : u.literals ≠ []) (hall : ∀ x ∈ u.literals, x = a) :
    checkClause m u = (m a.symbol == a.polarity) := by
  have hlast : u.lastLit a.symbol = some a := by
    unfold Clause.lastLit
    rcases hrev : u.literals.reverse with _ | ⟨x, t⟩
    · exact absurd (List.reverse_eq_nil_iff.1 hrev) hne
    · have hx : x = a := hall x (List.mem_reverse.1 (hrev ▸ List.mem_cons_self x t))
      subst hx
      exact List.find?_cons_of_pos _ (by simp)
  by_cases h : (m a.symbol == a.polarity) = true
  · rw [h]
    rcases List.exists_mem_of_ne_nil _ hne with ⟨x, hx⟩
    have hxa := hall x hx
    subst hxa
    exact checkClause_mem hx hlast (by simpa using h)
  · rw [Bool.eq_false_iff.2 h, Bool.eq_false_iff]
    intro hcon
    rcases checkClause_iff.1 hcon with ⟨ℓ, hl, hm⟩
    have hla := hall ℓ (lastLit_mem hl).1
    subst hla
    exact h (by simpa using hm)

theorem checkClause_singleton (m : String → Bool) (ℓ : Literal) :
    checkClause m ⟨[ℓ]⟩ = (m ℓ.symbol == ℓ.polarity) :=
  checkClause_allEq (by simp) (by simp)

theorem setEq_singleton_iff {u : Clause} {a : Literal} :
    Clause.setEq u ⟨[a]⟩ = true ↔ (u.literals ≠ [] ∧ ∀ x ∈ u.literals, x = a) := by
  rw [setEq_iff]
  constructor
  · intro ⟨h1, h2⟩
    have ha : a ∈ u.literals := h2 a (List.mem_singleton.2 rfl)
    exact ⟨List.ne_nil_of_mem ha, fun x hx => List.mem_singleton.1 (h1 x hx)⟩
  · intro ⟨h1, h2⟩
    refine ⟨fun x hx => List.mem_singleton.2 (h2 x hx), fun x hx => ?_⟩
    rcases List.exists_mem_of_ne_nil _ h1 with ⟨y, hy⟩
    rw [List.mem_singleton.1 hx, ← h2 y hy]
    exact hy

/-! ### Lemmas about `unit_resolve` -/

theorem resolveLits_eq (U : List Clause) (b : Bool) :
    ∀ lits : List Literal,
      resolveLits U b lits =
        if b && lits.any (fun ℓ => memS ⟨[ℓ]⟩ U) then none
        else some (lits.filter (fun ℓ => !(memS ⟨[ℓ.negate]⟩ U)))
  | [] => by simp [resolveLits]
  | ℓ :: rest => by
    cases b <;>
      by_cases h1 : memS ⟨[ℓ]⟩ U = true <;>
        by_cases h2 : rest.any (fun x => memS ⟨[x]⟩ U) = true <;>
          by_cases h3 : memS ⟨[ℓ.negate]⟩ U = true <;>
            simp [resolveLits, resolveLits_eq U false rest,
              resolveLits_eq U true rest, h1, h2, h3]

theorem unitResolve_eq (U : List Clause) (cl : Clause) :
    unitResolve U cl =
      if 1 < cl.literals.length ∧ ∃ ℓ ∈ cl.literals, memS ⟨[ℓ]⟩ U = true then none
      else some ⟨cl.literals.filter (fun ℓ => !(memS ⟨[ℓ.negate]⟩ U))⟩ := by
  have hc : (decide (1 < cl.literals.length) &&
        cl.literals.any (fun ℓ => memS ⟨[ℓ]⟩ U)) = true ↔
      (1 < cl.literals.length ∧ ∃ ℓ ∈ cl.literals, memS ⟨[ℓ]⟩ U = true) := by
    simp [List.any_eq_true]
  unfold unitResolve
  rw [resolveLits_eq]
  by_cases h : 1 < cl.literals.length ∧ ∃ ℓ ∈ cl.literals, memS ⟨[ℓ]⟩ U = true
  · rw [if_pos (hc.2 h), if_pos h]
    rfl
  · rw [if_neg (fun hcon => h (hc.1 hcon)), if_neg h]
    rfl

theorem unit_neg_false {m : String → Bool} {U : List Clause} {ℓ : Literal}
    (hU : ∀ u ∈ U, checkClause m u = true)
    (h : memS ⟨[ℓ.negate]⟩ U = true) : ¬(m ℓ.symbol = ℓ.polarity) := by
  rcases memS_iff.1 h with ⟨d, hd, hde⟩
  have h2 := setEq_singleton_iff.1 (setEq_symm (c := d) ▸ hde)
  have h3 := checkClause_allEq (m := m) h2.1 h2.2
  rw [hU d hd] at h3
  have h4 : m ℓ.symbol = !ℓ.polarity := by
    have := h3.symm
    simp only [Literal.negate] at this
    simpa using this
  intro hcon
  rw [hcon] at h4
  exact (Bool.eq_not_self _).mp h4

theorem unit_pos_true {m : String → Bool} {U : List Clause} {ℓ : Literal}
    (hU : ∀ u ∈ U, checkClause m u = true)
    (h : memS ⟨[ℓ]⟩ U = true) : m ℓ.symbol = ℓ.polarity := by
  rcases memS_iff.1 h with ⟨d, hd, hde⟩
  have h2 := setEq_singleton_iff.1 (setEq_symm (c := d) ▸ hde)
  have h3 := checkClause_allEq (m := m) h2.1 h2.2
  rw [hU d hd] at h3
  simpa using h3.symm

theorem unitResolve_forward {m : String → Bool} {U : List Clause} {cl c : Clause}
    (hU : ∀ u ∈ U, checkClause m u = true) (hcl : checkClause m cl = true)
    (h : unitResolve U cl = some c) : checkClause m c = true := by
  rw [unitResolve_eq] at h
  split at h
  · exact absurd h (by simp)
  · have hce : c = ⟨cl.literals.filter (fun ℓ => !(memS ⟨[ℓ.negate]⟩ U))⟩ := by
      injection h with h
      exact h.symm
    subst hce
    refine checkClause_filter hcl (fun ℓ _ hp => ?_)
    have hmem : memS ⟨[ℓ.negate]⟩ U = true := by simpa using hp
    exact unit_neg_false hU hmem

theorem unitResolve_none_backward {m : String → Bool} {U : List Clause} {cl : Clause}
    (hU : ∀ u ∈ U, checkClause m u = true) (hcons : consistentB cl = true)
    (h : unitResolve U cl = none) : checkClause m cl = true := by
  rw [unitResolve_eq] at h
  split at h
  · next hcond =>
    rcases hcond with ⟨_, ℓ, hmem, hℓU⟩
    rw [checkClause_of_consistent hcons]
    exact List.any_eq_true.2 ⟨ℓ, hmem, by simp [unit_pos_true hU hℓU]⟩
  · exact absurd h (by simp)

theorem unitResolve_some_subset {U : List Clause} {cl c : Clause}
    (h : unitResolve U cl = some c) : ∀ x ∈ c.literals, x ∈ cl.literals := by
  rw [unitResolve_eq] at h
  split at h
  · exact absurd h (by simp)
  · have hce : c = ⟨cl.literals.filter (fun ℓ => !(memS ⟨[ℓ.negate]⟩ U))⟩ := by
      injection h with h
      exact h.symm
    subst hce
    exact fun x hx => List.mem_of_mem_filter hx

theorem unitResolve_some_backward {m : String → Bool} {U : List Clause} {cl c : Clause}
    (hcons : consistentB cl = true)
    (h : unitResolve U cl = some c) (hc : checkClause m c = true) :
    checkClause m cl = true := by
  have hsub := unitResolve_some_subset h
  have hconsc : consistentB c = true := consistentB_of_subset hsub hcons
  rw [checkClause_of_consistent hconsc] at hc
  rw [checkClause_of_consistent hcons]
  exact anyLit_of_subset hsub hc

/-! ### Lemmas about one round of `unit_resolution` -/

theorem urStepInsert_none {U : List Clause} {cl : Clause} (acc : List Clause × List Clause)
    (h : unitResolve U cl = none) : urStepInsert U acc cl = acc := by
  unfold urStepInsert
  rw [h]

theorem urStepInsert_some_unit {U : List Clause} {cl c : Clause}
    (acc : List Clause × List Clause) (h : unitResolve U cl = some c)
    (hlen : c.literals.length = 1) :
    urStepInsert U acc cl = (insertS acc.1 c, acc.2) := by
  unfold urStepInsert
  rw [h]
  exact if_pos hlen

theorem urStepInsert_some_reg {U : List Clause} {cl c : Clause}
    (acc : List Clause × List Clause) (h : unitResolve U cl = some c)
    (hlen : ¬c.literals.length = 1) :
    urStepInsert U acc cl = (acc.1, insertS acc.2 c) := by
  unfold urStepInsert
  rw [h]
  exact if_neg hlen

theorem urStep_fold_shape (U : List Clause) (Q : Clause → Prop) :
    ∀ (items : List Clause) (acc : List Clause × List Clause),
      (∀ cl ∈ items, Q cl) →
      (∃ E, (items.foldl (urStepInsert U) acc).1 = acc.1 ++ E ∧
        ∀ c ∈ E, c.literals.length = 1 ∧ ∃ cl, Q cl ∧ unitResolve U cl = some c) ∧
      (∀ c ∈ (items.foldl (urStepInsert U) acc).2,
        c ∈ acc.2 ∨ ∃ cl, Q cl ∧ unitResolve U cl = some c)
  | [], acc, _ => ⟨⟨[], by simp, by simp⟩, fun c hc => Or.inl hc⟩
  | i :: is, acc, hQ => by
    have hQi : Q i := hQ i (List.mem_cons_self _ _)
    have hQis : ∀ cl ∈ is, Q cl := fun cl hcl => hQ cl (List.mem_cons_of_mem _ hcl)
    rw [List.foldl_cons]
    rcases hres : unitResolve U i with _ | c
    · rw [urStepInsert_none acc hres]
      exact urStep_fold_shape U Q is acc hQis
    · by_cases hlen : c.literals.length = 1
      · rw [urStepInsert_some_unit acc hres hlen]
        rcases urStep_fold_shape U Q is (insertS acc.1 c, acc.2) hQis with ⟨⟨E, hE, hEp⟩, hsnd⟩
        rcases insertS_eq_or acc.1 c with hi | hi
        · refine ⟨⟨E, ?_, hEp⟩, hsnd⟩
          rw [hE, hi]
        · refine ⟨⟨c :: E, ?_, ?_⟩, hsnd⟩
          · rw [hE, hi]
            simp
          · intro x hx
            rcases List.mem_cons.1 hx with hx1 | hx1
            · exact hx1 ▸ ⟨hlen, i, hQi, hres⟩
            · exact hEp x hx1
      · rw [urStepInsert_some_reg acc hres hlen]
        rcases urStep_fold_shape U Q is (acc.1, insertS acc.2 c) hQis with ⟨⟨E, hE, hEp⟩, hsnd⟩
        refine ⟨⟨E, hE, hEp⟩, fun x hx => ?_⟩
        rcases hsnd x hx with hx1 | hx1
        · rcases mem_insertS hx1 with hx2 | hx2
          · exact Or.inl hx2
          · exact Or.inr ⟨i, hQi, hx2 ▸ hres⟩
        · exact Or.inr hx1

theorem urStep_shape (U G : List Clause) (Q : Clause → Prop)
    (hQ : ∀ cl ∈ unionS G U, Q cl) :
    (∃ E, (urStep U G).1 = U ++ E ∧
      ∀ c ∈ E, c.literals.length = 1 ∧ ∃ cl, Q cl ∧ unitResolve U cl = some c) ∧
    (∀ c ∈ (urStep U G).2, ∃ cl, Q cl ∧ unitResolve U cl = some c) := by
  have h := urStep_fold_shape U Q (unionS G U) (U, []) hQ
  refine ⟨h.1, fun c hc => ?_⟩
  rcases h.2 c hc with h1 | h1
  · simp at h1
  · exact h1

theorem urStep_fold_subset (U : List Clause) :
    ∀ (items : List Clause) (acc : List Clause × List Clause),
      acc.1 ⊆ (items.foldl (urStepInsert U) acc).1 ∧
        acc.2 ⊆ (items.foldl (urStepInsert U) acc).2
  | [], acc => ⟨fun _ h => h, fun _ h => h⟩
  | i :: is, acc => by
    have IH := urStep_fold_subset U is (urStepInsert U acc i)
    rw [List.foldl_cons]
    have hsub : acc.1 ⊆ (urStepInsert U acc i).1 ∧ acc.2 ⊆ (urStepInsert U acc i).2 := by
      rcases hres : unitResolve U i with _ | c
      · rw [urStepInsert_none acc hres]
        exact ⟨fun _ h => h, fun _ h => h⟩
      · by_cases hlen : c.literals.length = 1
        · rw [urStepInsert_some_unit acc hres hlen]
          exact ⟨subset_insertS _ _, fun _ h => h⟩
        · rw [urStepInsert_some_reg acc hres hlen]
          exact ⟨fun _ h => h, subset_insertS _ _⟩
    exact ⟨fun x hx => IH.1 (hsub.1 hx), fun x hx => IH.2 (hsub.2 hx)⟩

theorem urStep_fold_derived_mem (U : List Clause) {cl c : Clause} :
    ∀ (items : List Clause) (acc : List Clause × List Clause),
      cl ∈ items → unitResolve U cl = some c →
      ∃ d, (d ∈ (items.foldl (urStepInsert U) acc).1 ∨
            d ∈ (items.foldl (urStepInsert U) acc).2) ∧ Clause.setEq d c = true
  | [], _, hmem, _ => absurd hmem (List.not_mem_nil cl)
  | i :: is, acc, hmem, hres => by
    rw [List.foldl_cons]
    rcases List.mem_cons.1 hmem with h1 | h1
    · subst h1
      by_cases hlen : c.literals.length = 1
      · rw [urStepInsert_some_unit acc hres hlen]
        rcases exists_setEq_insertS acc.1 c with ⟨d, hd, hde⟩
        exact ⟨d, Or.inl ((urStep_fold_subset U is _).1 hd), hde⟩
      · rw [urStepInsert_some_reg acc hres hlen]
        rcases exists_setEq_insertS acc.2 c with ⟨d, hd, hde⟩
        exact ⟨d, Or.inr ((urStep_fold_subset U is _).2 hd), hde⟩
    · exact urStep_fold_derived_mem U is (urStepInsert U acc i) h1 hres

theorem urStep_derived_mem {U G : List Clause} {cl c : Clause}
    (hmem : cl ∈ unionS G U) (hres : unitResolve U cl = some c) :
    ∃ d, (d ∈ (urStep U G).1 ∨ d ∈ (urStep U G).2) ∧ Clause.setEq d c = true :=
  urStep_fold_derived_mem U (unionS G U) (U, []) hmem hres

theorem urStep_subset_fst (U G : List Clause) : U ⊆ (urStep U G).1 :=
  (urStep_fold_subset U (unionS G U) (U, [])).1

theorem urStep_forward {m : String → Bool} {U G : List Clause}
    (hU : ∀ u ∈ U, checkClause m u = true) (hG : ∀ g ∈ G, checkClause m g = true) :
    (∀ c ∈ (urStep U G).1, checkClause m c = true) ∧
      (∀ c ∈ (urStep U G).2, checkClause m c = true) := by
  have hQ : ∀ cl ∈ unionS G U, checkClause m cl = true := fun cl hcl => by
    rcases mem_unionS hcl with h | h
    · exact hG cl h
    · exact hU cl h
  rcases urStep_shape U G (fun cl => checkClause m cl = true) hQ with ⟨⟨E, hE, hEp⟩, hsnd⟩
  constructor
  · intro c hc
    rw [hE] at hc
    rcases List.mem_append.1 hc with h | h
    · exact hU c h
    · rcases (hEp c h).2 with ⟨cl, hcl, hres⟩
      exact unitResolve_forward hU hcl hres
  · intro c hc
    rcases hsnd c hc with ⟨cl, hcl, hres⟩
    exact unitResolve_forward hU hcl hres

theorem urStep_consistent {U G : List Clause}
    (hU : ∀ c ∈ U, consistentB c = true) (hG : ∀ c ∈ G, consistentB c = true) :
    (∀ c ∈ (urStep U G).1, consistentB c = true) ∧
      (∀ c ∈ (urStep U G).2, consistentB c = true) := by
  have hQ : ∀ cl ∈ unionS G U, consistentB cl = true := fun cl hcl => by
    rcases mem_unionS hcl with h | h
    · exact hG cl h
    · exact hU cl h
  rcases urStep_shape U G (fun cl => consistentB cl = true) hQ with ⟨⟨E, hE, hEp⟩, hsnd⟩
  constructor
  · intro c hc
    rw [hE] at hc
    rcases List.mem_append.1 hc with h | h
    · exact hU c h
    · rcases (hEp c h).2 with ⟨cl, hcl, hres⟩
      exact consistentB_of_subset (unitResolve_some_subset hres) hcl
  · intro c hc
    rcases hsnd c hc with ⟨cl, hcl, hres⟩
    exact consistentB_of_subset (unitResolve_some_subset hres) hcl

theorem urStep_units_len {U G : List Clause}
    (hU : ∀ c ∈ U, c.literals.length = 1) :
    ∀ c ∈ (urStep U G).1, c.literals.length = 1 := by
  rcases urStep_shape U G (fun _ => True) (fun _ _ => trivial) with ⟨⟨E, hE, hEp⟩, _⟩
  intro c hc
  rw [hE] at hc
  rcases List.mem_append.1 hc with h | h
  · exact hU c h
  · exact (hEp c h).1

theorem urStep_fst_append (U G : List Clause) :
    ∃ E, (urStep U G).1 = U ++ E ∧ ∀ c ∈ E, c.literals.length = 1 := by
  rcases urStep_shape U G (fun _ => True) (fun _ _ => trivial) with ⟨⟨E, hE, hEp⟩, _⟩
  exact ⟨E, hE, fun c hc => (hEp c hc).1⟩

theorem urStep_backward {m : String → Bool} {U G : List Clause}
    (hUc : ∀ c ∈ U, consistentB c = true) (hGc : ∀ c ∈ G, consistentB c = true)
    (h1 : ∀ c ∈ (urStep U G).1, checkClause m c = true)
    (h2 : ∀ c ∈ (urStep U G).2, checkClause m c = true) :
    (∀ u ∈ U, checkClause m u = true) ∧ (∀ g ∈ G, checkClause m g = true) := by
  have hU : ∀ u ∈ U, checkClause m u = true :=
    fun u hu => h1 u (urStep_subset_fst U G hu)
  refine ⟨hU, fun g hg => ?_⟩
  have hgU : g ∈ unionS G U := subset_unionS_left G U hg
  rcases hres : unitResolve U g with _ | c
  · exact unitResolve_none_backward hU (hGc g hg) hres
  · rcases urStep_derived_mem hgU hres with ⟨d, hd, hde⟩
    have hcons := urStep_consistent hUc hGc
    have hdc : consistentB d = true := by
      rcases hd with h | h
      exacts [hcons.1 d h, hcons.2 d h]
    have hdsat : checkClause m d = true := by
      rcases hd with h | h
      exacts [h1 d h, h2 d h]
    have hcc : consistentB c = true :=
      consistentB_of_subset (unitResolve_some_subset hres) (hGc g hg)
    have hcsat : checkClause m c = true := by
      rw [← checkClause_congr hdc hcc hde]
      exact hdsat
    exact unitResolve_some_backward (hGc g hg) hres hcsat

/-! ### Lemmas about the `unit_resolution` fixpoint loop -/

theorem urLoop_succ (fuel : Nat) (U G : List Clause) :
    urLoop (fuel+1) (U, G) =
      if (urStep U G).1.length = U.length then (U, (urStep U G).2)
      else urLoop fuel (urStep U G) := rfl

theorem urLoop_forward {m : String → Bool} :
    ∀ (fuel : Nat) (U G : List Clause),
      (∀ u ∈ U, checkClause m u = true) → (∀ g ∈ G, checkClause m g = true) →
      (∀ c ∈ (urLoop fuel (U, G)).1, checkClause m c = true) ∧
        (∀ c ∈ (urLoop fuel (U, G)).2, checkClause m c = true)
  | 0, U, G, hU, hG => ⟨hU, hG⟩
  | fuel+1, U, G, hU, hG => by
    rw [urLoop_succ]
    have hstep := urStep_forward hU hG
    split
    · exact ⟨hU, hstep.2⟩
    · have := urLoop_forward fuel (urStep U G).1 (urStep U G).2 hstep.1 hstep.2
      simpa using this

theorem urLoop_consistent :
    ∀ (fuel : Nat) (U G : List Clause),
      (∀ c ∈ U, consistentB c = true) → (∀ c ∈ G, consistentB c = true) →
      (∀ c ∈ (urLoop fuel (U, G)).1, consistentB c = true) ∧
        (∀ c ∈ (urLoop fuel (U, G)).2, consistentB c = true)
  | 0, U, G, hU, hG => ⟨hU, hG⟩
  | fuel+1, U, G, hU, hG => by
    rw [urLoop_succ]
    have hstep := urStep_consistent hU hG
    split
    · exact ⟨hU, hstep.2⟩
    · have := urLoop_consistent fuel (urStep U G).1 (urStep U G).2 hstep.1 hstep.2
      simpa using this

theorem urLoop_units_len :
    ∀ (fuel : Nat) (U G : List Clause),
      (∀ c ∈ U, c.literals.length = 1) →
      ∀ c ∈ (urLoop fuel (U, G)).1, c.literals.length = 1
  | 0, U, G, hU => hU
  | fuel+1, U, G, hU => by
    rw [urLoop_succ]
    have hstep := urStep_units_len (G := G) hU
    split
    · exact hU
    · have := urLoop_units_len fuel (urStep U G).1 (urStep U G).2 hstep
      simpa using this

theorem urLoop_backward {m : String → Bool} :
    ∀ (fuel : Nat) (U G : List Clause),
      (∀ c ∈ U, consistentB c = true) → (∀ c ∈ G, consistentB c = true) →
      (∀ c ∈ (urLoop fuel (U, G)).1, checkClause m c = true) →
      (∀ c ∈ (urLoop fuel (U, G)).2, checkClause m c = true) →
      (∀ u ∈ U, checkClause m u = true) ∧ (∀ g ∈ G, checkClause m g = true)
  | 0, U, G, _, _, h1, h2 => ⟨h1, h2⟩
  | fuel+1, U, G, hUc, hGc, h1, h2 => by
    rw [urLoop_succ] at h1 h2
    by_cases hexit : (urStep U G).1.length = U.length
    · rw [if_pos hexit] at h1 h2
      rcases urStep_fst_append U G with ⟨E, hE, _⟩
      have hEnil : E = [] := by
        have : U.length + E.length = U.length := by
          rw [← List.length_append, ← hE, hexit]
        exact List.length_eq_zero.1 (by omega)
      have hfst : ∀ c ∈ (urStep U G).1, checkClause m c = true := by
        rw [hE, hEnil, List.append_nil]
        exact h1
      exact urStep_backward hUc hGc hfst h2
    · rw [if_neg hexit] at h1 h2
      have hstepc := urStep_consistent hUc hGc
      have := urLoop_backward fuel (urStep U G).1 (urStep U G).2 hstepc.1 hstepc.2
        (by simpa using h1) (by simpa using h2)
      exact urStep_backward hUc hGc this.1 this.2

/-! ### Lemmas about `unit_resolution` -/

theorem unitResolution_forward {m : String → Bool} {U G : List Clause}
    (hU : ∀ u ∈ U, checkClause m u = true) (hG : ∀ g ∈ G, checkClause m g = true) :
    (∀ c ∈ (unitResolution U G).1, checkClause m c = true) ∧
      (∀ c ∈ (unitResolution U G).2, checkClause m c = true) := by
  unfold unitResolution
  exact urLoop_forward _ _ _
    (fun u hu => hU u (mem_dedupS hu)) (fun g hg => hG g (mem_dedupS hg))

theorem unitResolution_units_len {U G : List Clause}
    (hU : ∀ c ∈ U, c.literals.length = 1) :
    ∀ c ∈ (unitResolution U G).1, c.literals.length = 1 := by
  unfold unitResolution
  exact urLoop_units_len _ _ _ (fun c hc => hU c (mem_dedupS hc))

theorem unitResolution_backward {m : String → Bool} {U G : List Clause}
    (hUc : ∀ c ∈ U, consistentB c = true) (hGc : ∀ c ∈ G, consistentB c = true)
    (h1 : ∀ c ∈ (unitResolution U G).1, checkClause m c = true)
    (h2 : ∀ c ∈ (unitResolution U G).2, checkClause m c = true) :
    (∀ u ∈ U, checkClause m u = true) ∧ (∀ g ∈ G, checkClause m g = true) := by
  unfold unitResolution at h1 h2
  have hd := urLoop_backward _ _ _
    (fun c hc => hUc c (mem_dedupS hc)) (fun c hc => hGc c (mem_dedupS hc)) h1 h2
  constructor
  · intro u hu
    rcases exists_setEq_dedupS hu with ⟨d, hdmem, hde⟩
    rw [← checkClause_congr (hUc d (mem_dedupS hdmem)) (hUc u hu) hde]
    exact hd.1 d hdmem
  · intro g hg
    rcases exists_setEq_dedupS hg with ⟨d, hdmem, hde⟩
    rw [← checkClause_congr (hGc d (mem_dedupS hdmem)) (hGc g hg) hde]
    exact hd.2 d hdmem

/-! ### Termination of the `unit_resolution` loop -/

theorem nodupS_insertS {s : List Clause} {c : Clause} (h : nodupS s) :
    nodupS (insertS s c) := by
  unfold insertS
  split
  · exact h
  · next hmem =>
    rw [nodupS, List.pairwise_append]
    refine ⟨h, List.pairwise_singleton _ _, ?_⟩
    intro a ha b hb
    rw [List.mem_singleton.1 hb]
    by_contra hcon
    rw [Bool.not_eq_false] at hcon
    exact hmem (memS_iff.2 ⟨a, ha, setEq_symm (c := a) ▸ hcon⟩)

theorem nodupS_foldl_insertS :
    ∀ (items : List Clause) (acc : List Clause), nodupS acc →
      nodupS (items.foldl insertS acc)
  | [], _, h => h
  | i :: is, acc, h => nodupS_foldl_insertS is (insertS acc i) (nodupS_insertS h)

theorem nodupS_dedupS (l : List Clause) : nodupS (dedupS l) :=
  nodupS_foldl_insertS l [] List.Pairwise.nil

theorem urStep_fold_nodup (U : List Clause) :
    ∀ (items : List Clause) (acc : List Clause × List Clause),
      nodupS acc.1 → nodupS acc.2 →
      nodupS (items.foldl (urStepInsert U) acc).1 ∧
        nodupS (items.foldl (urStepInsert U) acc).2
  | [], _, h1, h2 => ⟨h1, h2⟩
  | i :: is, acc, h1, h2 => by
    rw [List.foldl_cons]
    rcases hres : unitResolve U i with _ | c
    · rw [urStepInsert_none acc hres]
      exact urStep_fold_nodup U is acc h1 h2
    · by_cases hlen : c.literals.length = 1
      · rw [urStepInsert_some_unit acc hres hlen]
        exact urStep_fold_nodup U is _ (nodupS_insertS h1) h2
      · rw [urStepInsert_some_reg acc hres hlen]
        exact urStep_fold_nodup U is _ h1 (nodupS_insertS h2)

theorem urStep_nodup {U G : List Clause} (h : nodupS U) :
    nodupS (urStep U G).1 ∧ nodupS (urStep U G).2 :=
  urStep_fold_nodup U (unionS G U) (U, []) h List.Pairwise.nil

theorem setEq_of_singletons {a b : Clause} {x : Literal}
    (ha : a.literals = [x]) (hb : b.literals = [x]) : Clause.setEq a b = true := by
  refine setEq_iff.2 ⟨?_, ?_⟩ <;> rw [ha, hb] <;> exact fun y hy => hy

theorem singleton_units_bound {E : List Clause} {L : List Literal}
    (hnd : nodupS E) (hE1 : ∀ c ∈ E, c.literals.length = 1)
    (hEL : ∀ c ∈ E, ∀ ℓ ∈ c.literals, ℓ ∈ L) :
    E.length ≤ L.dedup.length := by
  classical
  set f : Clause → Literal := fun c => c.literals.headD ⟨"", true⟩ with hf
  have hfc : ∀ c ∈ E, c.literals = [f c] := by
    intro c hc
    rcases List.length_eq_one.1 (hE1 c hc) with ⟨a, ha⟩
    rw [ha, hf]
    simp [ha]
  have hmapnd : (E.map f).Nodup := by
    rw [List.Nodup, List.pairwise_map]
    refine List.Pairwise.imp_of_mem ?_ hnd
    intro a b ha hb hab
    intro hcon
    rw [setEq_of_singletons (hfc a ha) (hcon ▸ hfc b hb)] at hab
    simp at hab
  have hsub : ∀ x ∈ E.map f, x ∈ L.dedup := by
    intro x hx
    rcases List.mem_map.1 hx with ⟨c, hc, hxc⟩
    refine List.mem_dedup.2 (hEL c hc x ?_)
    rw [hfc c hc, ← hxc]
    exact List.mem_singleton.2 rfl
  have h1 : (E.map f).toFinset.card = (E.map f).length := List.toFinset_card_of_nodup hmapnd
  have h2 : (E.map f).toFinset ⊆ L.dedup.toFinset := by
    intro x hx
    exact List.mem_toFinset.2 (hsub x (List.mem_toFinset.1 hx))
  have h3 := Finset.card_le_card h2
  have h4 := List.toFinset_card_le (l := L.dedup)
  rw [h1, List.length_map] at h3
  omega

theorem urStep_inv {U0 : List Clause} {L : List Literal} {U G : List Clause}
    (h : UrInv U0 L (U, G)) : UrInv U0 L (urStep U G) := by
  rcases h with ⟨hnd, ⟨E, hE, hE1⟩, hUL, hGL⟩
  dsimp only at hnd hE hUL hGL
  have hQ : ∀ cl ∈ unionS G U, ∀ ℓ ∈ cl.literals, ℓ ∈ L := by
    intro cl hcl
    rcases mem_unionS hcl with h | h
    · exact hGL cl h
    · exact hUL cl h
  rcases urStep_shape U G (fun cl => ∀ ℓ ∈ cl.literals, ℓ ∈ L) hQ with
    ⟨⟨E2, hE2, hE2p⟩, hsnd⟩
  refine ⟨(urStep_nodup hnd).1, ⟨E ++ E2, ?_, ?_⟩, ?_, ?_⟩
  · rw [hE2, hE, List.append_assoc]
  · intro c hc
    rcases List.mem_append.1 hc with h | h
    · exact hE1 c h
    · exact (hE2p c h).1
  · intro c hc
    rw [hE2] at hc
    rcases List.mem_append.1 hc with h | h
    · exact hUL c h
    · rcases (hE2p c h).2 with ⟨cl, hcl, hres⟩
      exact fun ℓ hℓ => hcl ℓ (unitResolve_some_subset hres ℓ hℓ)
  · intro c hc
    rcases hsnd c hc with ⟨cl, hcl, hres⟩
    exact fun ℓ hℓ => hcl ℓ (unitResolve_some_subset hres ℓ hℓ)

theorem urInv_length {U0 : List Clause} {L : List Literal} {U G : List Clause}
    (h : UrInv U0 L (U, G)) : U.length ≤ U0.length + L.dedup.length := by
  rcases h with ⟨hnd, ⟨E, hE, hE1⟩, hUL, _⟩
  dsimp only at hnd hE hUL
  have hndE : nodupS E := by
    rw [hE] at hnd
    exact List.Pairwise.sublist (List.sublist_append_right U0 E) hnd
  have hEL : ∀ c ∈ E, ∀ ℓ ∈ c.literals, ℓ ∈ L := by
    intro c hc
    exact hUL c (hE ▸ List.mem_append_right U0 hc)
  have := singleton_units_bound hndE hE1 hEL
  have hlen : U.length = U0.length + E.length := by
    rw [hE, List.length_append]
  omega

theorem urLoop_stable_aux (U0 : List Clause) (L : List Literal) :
    ∀ (f1 : Nat) (U G : List Clause) (f2 : Nat), UrInv U0 L (U, G) →
      U0.length + L.dedup.length + 1 ≤ f1 + U.length → f1 ≤ f2 →
      urLoop f2 (U, G) = urLoop f1 (U, G)
  | 0, U, G, _, hinv, hfuel, _ => by
    have := urInv_length hinv
    omega
  | f+1, U, G, f2, hinv, hfuel, hle => by
    have hf2 : ∃ g, f2 = g + 1 := ⟨f2 - 1, by omega⟩
    rcases hf2 with ⟨g, rfl⟩
    rw [urLoop_succ, urLoop_succ]
    by_cases hexit : (urStep U G).1.length = U.length
    · rw [if_pos hexit, if_pos hexit]
    · rw [if_neg hexit, if_neg hexit]
      rcases urStep_fst_append U G with ⟨E, hE, _⟩
      have hEne : E ≠ [] := by
        intro hcon
        rw [hcon, List.append_nil] at hE
        exact hexit (by rw [hE])
      have hgrow : U.length + 1 ≤ (urStep U G).1.length := by
        rw [hE, List.length_append]
        have : 0 < E.length := List.length_pos.2 hEne
        omega
      have hinv2 : UrInv U0 L (urStep U G) := urStep_inv hinv
      have hinv2' : UrInv U0 L ((urStep U G).1, (urStep U G).2) := by
        rw [Prod.mk.eta]
        exact hinv2
      have := urLoop_stable_aux U0 L f (urStep U G).1 (urStep U G).2 g hinv2'
        (by omega) (by omega)
      rw [Prod.mk.eta] at this
      exact this

theorem urLoop_inv_result (U0 : List Clause) (L : List Literal) :
    ∀ (fuel : Nat) (U G : List Clause), UrInv U0 L (U, G) →
      UrInv U0 L (urLoop fuel (U, G))
  | 0, U, G, hinv => hinv
  | fuel+1, U, G, hinv => by
    rw [urLoop_succ]
    by_cases hexit : (urStep U G).1.length = U.length
    · rw [if_pos hexit]
      have hinv2 := urStep_inv hinv
      exact ⟨hinv.1, hinv.2.1, hinv.2.2.1, hinv2.2.2.2⟩
    · rw [if_neg hexit]
      have hinv2' : UrInv U0 L ((urStep U G).1, (urStep U G).2) := by
        rw [Prod.mk.eta]
        exact urStep_inv hinv
      have := urLoop_inv_result U0 L fuel (urStep U G).1 (urStep U G).2 hinv2'
      rw [Prod.mk.eta] at this
      exact this

theorem urInv_init (U G : List Clause) :
    UrInv (dedupS U) (allLitsOf (dedupS U ++ dedupS G)) (dedupS U, dedupS G) := by
  refine ⟨nodupS_dedupS U, ⟨[], by simp, by simp⟩, ?_, ?_⟩
  · intro c hc ℓ hℓ
    exact List.mem_flatMap.2 ⟨c, List.mem_append_left _ hc, hℓ⟩
  · intro c hc ℓ hℓ
    exact List.mem_flatMap.2 ⟨c, List.mem_append_right _ hc, hℓ⟩

theorem unitResolution_stable (U G : List Clause) (k : Nat) :
    urLoop (urFuel (dedupS U) (dedupS G) + k) (dedupS U, dedupS G) =
      unitResolution U G := by
  unfold unitResolution urFuel
  exact urLoop_stable_aux (dedupS U) (allLitsOf (dedupS U ++ dedupS G)) _ _ _ _
    (urInv_init U G) (by omega) (by omega)

theorem unitResolution_units_bound (U G : List Clause) :
    (unitResolution U G).1.length ≤
      (dedupS U).length + (allLitsOf (dedupS U ++ dedupS G)).dedup.length := by
  unfold unitResolution
  have h := urLoop_inv_result (dedupS U) (allLitsOf (dedupS U ++ dedupS G))
    (urFuel (dedupS U) (dedupS G)) (dedupS U) (dedupS G) (urInv_init U G)
  have h2 : UrInv (dedupS U) (allLitsOf (dedupS U ++ dedupS G))
      ((urLoop (urFuel (dedupS U) (dedupS G)) (dedupS U, dedupS G)).1,
       (urLoop (urFuel (dedupS U) (dedupS G)) (dedupS U, dedupS G)).2) := by
    rw [Prod.mk.eta]
    exact h
  exact urInv_length h2

/-! ### The signature, models and goal states of the DPLL search -/

theorem mem_insertSorted {y x : String} :
    ∀ {l : List String}, y ∈ insertSorted x l ↔ y = x ∨ y ∈ l
  | [] => by simp [insertSorted]
  | z :: zs => by
    unfold insertSorted
    split
    · simp
    · rw [List.mem_cons, List.mem_cons, mem_insertSorted (l := zs)]
      tauto

theorem nodup_insertSorted {x : String} :
    ∀ {l : List String}, x ∉ l → l.Nodup → (insertSorted x l).Nodup
  | [], _, _ => List.nodup_singleton x
  | z :: zs, hx, hnd => by
    unfold insertSorted
    split
    · exact List.Nodup.cons hx hnd
    · rcases List.nodup_cons.1 hnd with ⟨hz, hzs⟩
      refine List.nodup_cons.2 ⟨?_, ?_⟩
      · intro hcon
        rcases mem_insertSorted.1 hcon with h | h
        · exact hx (h ▸ List.mem_cons_self z zs)
        · exact hz h
      · exact nodup_insertSorted (fun hcon => hx (List.mem_cons_of_mem z hcon)) hzs

theorem mem_sortStrings {y : String} :
    ∀ {l : List String}, y ∈ sortStrings l ↔ y ∈ l
  | [] => Iff.rfl
  | z :: zs => by
    show y ∈ insertSorted z (sortStrings zs) ↔ _
    rw [mem_insertSorted, List.mem_cons, mem_sortStrings (l := zs)]

theorem nodup_sortStrings :
    ∀ {l : List String}, l.Nodup → (sortStrings l).Nodup
  | [], _ => List.Pairwise.nil
  | z :: zs, hnd => by
    rcases List.nodup_cons.1 hnd with ⟨hz, hzs⟩
    show (insertSorted z (sortStrings zs)).Nodup
    exact nodup_insertSorted (fun hcon => hz (mem_sortStrings.1 hcon)) (nodup_sortStrings hzs)

theorem signature_nodup (sent : Cnf) : (signatureOf sent).Nodup :=
  nodup_sortStrings (List.nodup_dedup _)

theorem mem_signature_iff {sent : Cnf} {s : String} :
    s ∈ signatureOf sent ↔ s ∈ sent.symbolsList :=
  mem_sortStrings.trans (List.mem_dedup)

theorem lookupLast_eq_none {s : String} :
    ∀ {al : List (String × Bool)}, (∀ p ∈ al, p.1 ≠ s) → lookupLast al s = none
  | [], _ => rfl
  | p :: rest, h => by
    unfold lookupLast
    rw [lookupLast_eq_none (fun q hq => h q (List.mem_cons_of_mem p hq))]
    rw [if_neg ?_]
    simpa using h p (List.mem_cons_self p rest)

theorem lookupLast_mem_nodup {s : String} {b : Bool} :
    ∀ {al : List (String × Bool)}, (al.map Prod.fst).Nodup → (s, b) ∈ al →
      lookupLast al s = some b
  | [], _, hmem => absurd hmem (List.not_mem_nil _)
  | p :: rest, hnd, hmem => by
    rcases List.nodup_cons.1 (List.map_cons Prod.fst p rest ▸ hnd) with ⟨hp, hrest⟩
    unfold lookupLast
    rcases List.mem_cons.1 hmem with h1 | h1
    · have hps : p = (s, b) := h1.symm
      subst hps
      have hnone : lookupLast rest s = none := by
        refine lookupLast_eq_none (fun q hq hcon => hp ?_)
        show s ∈ List.map Prod.fst rest
        rw [← hcon]
        exact List.mem_map_of_mem Prod.fst hq
      rw [hnone]
      simp
    · rw [lookupLast_mem_nodup hrest h1]

theorem lookupLast_modelList {st : List Literal} {ℓ : Literal}
    (hnd : (st.map Literal.symbol).Nodup) (hmem : ℓ ∈ st) :
    lookupLast (modelList st) ℓ.symbol = some ℓ.polarity := by
  have hnd2 : ((modelList st).map Prod.fst).Nodup := by
    unfold modelList
    rw [List.map_map]
    exact hnd
  exact lookupLast_mem_nodup hnd2
    (List.mem_map.2 ⟨ℓ, hmem, rfl⟩)

theorem any_congr_mem {α : Type} {p q : α → Bool} :
    ∀ {l : List α}, (∀ a ∈ l, p a = q a) → l.any p = l.any q
  | [], _ => rfl
  | x :: t, h => by
    rw [List.any_cons, List.any_cons, h x (List.mem_cons_self _ _),
      any_congr_mem (fun a ha => h a (List.mem_cons_of_mem _ ha))]

theorem all_congr_mem {α : Type} {p q : α → Bool} :
    ∀ {l : List α}, (∀ a ∈ l, p a = q a) → l.all p = l.all q
  | [], _ => rfl
  | x :: t, h => by
    rw [List.all_cons, List.all_cons, h x (List.mem_cons_self _ _),
      all_congr_mem (fun a ha => h a (List.mem_cons_of_mem _ ha))]

theorem checkClause_congr_syms {m1 m2 : String → Bool} {cl : Clause}
    (h : ∀ ℓ ∈ cl.literals, m1 ℓ.symbol = m2 ℓ.symbol) :
    checkClause m1 cl = checkClause m2 cl := by
  unfold checkClause
  refine any_congr_mem (fun ℓ _ => ?_)
  rcases hlast : cl.lastLit ℓ.symbol with _ | ℓ2
  · rfl
  · show (m1 ℓ2.symbol == ℓ2.polarity) = (m2 ℓ2.symbol == ℓ2.polarity)
    rw [h ℓ2 (lastLit_mem hlast).1]

theorem checkModel_congr_syms {m1 m2 : String → Bool} {sent : Cnf}
    (h : ∀ s ∈ sent.symbolsList, m1 s = m2 s) :
    sent.checkModel m1 = sent.checkModel m2 := by
  unfold Cnf.checkModel
  refine all_congr_mem (fun cl hcl => ?_)
  refine checkClause_congr_syms (fun ℓ hℓ => ?_)
  exact h ℓ.symbol (List.mem_flatMap.2 ⟨cl, hcl, List.mem_map_of_mem _ hℓ⟩)

/-! ### The clause partition of `DpllSearchSpace.__init__` -/

theorem partition_fold :
    ∀ (items : List Clause) (acc : List Clause × List Clause),
      (∀ c ∈ (items.foldl (fun acc cl =>
          if cl.literals.length = 1 then (insertS acc.1 cl, acc.2)
          else (acc.1, insertS acc.2 cl)) acc).1,
        c ∈ acc.1 ∨ (c ∈ items ∧ c.literals.length = 1)) ∧
      (∀ c ∈ (items.foldl (fun acc cl =>
          if cl.literals.length = 1 then (insertS acc.1 cl, acc.2)
          else (acc.1, insertS acc.2 cl)) acc).2,
        c ∈ acc.2 ∨ c ∈ items)
  | [], acc => ⟨fun c hc => Or.inl hc, fun c hc => Or.inl hc⟩
  | i :: is, acc => by
    rw [List.foldl_cons]
    by_cases hlen : i.literals.length = 1
    · rw [if_pos hlen]
      rcases partition_fold is (insertS acc.1 i, acc.2) with ⟨h1, h2⟩
      constructor
      · intro c hc
        rcases h1 c hc with h | h
        · rcases mem_insertS h with h3 | h3
          · exact Or.inl h3
          · exact Or.inr ⟨h3 ▸ List.mem_cons_self i is, h3 ▸ hlen⟩
        · exact Or.inr ⟨List.mem_cons_of_mem i h.1, h.2⟩
      · intro c hc
        rcases h2 c hc with h | h
        · exact Or.inl h
        · exact Or.inr (List.mem_cons_of_mem i h)
    · rw [if_neg hlen]
      rcases partition_fold is (acc.1, insertS acc.2 i) with ⟨h1, h2⟩
      constructor
      · intro c hc
        rcases h1 c hc with h | h
        · exact Or.inl h
        · exact Or.inr ⟨List.mem_cons_of_mem i h.1, h.2⟩
      · intro c hc
        rcases h2 c hc with h | h
        · rcases mem_insertS h with h3 | h3
          · exact Or.inl h3
          · exact Or.inr (h3 ▸ List.mem_cons_self i is)
        · exact Or.inr (List.mem_cons_of_mem i h)

theorem partition_mem (sent : Cnf) :
    (∀ c ∈ (partitionClauses sent).1, c ∈ sent.clauses ∧ c.literals.length = 1) ∧
      (∀ c ∈ (partitionClauses sent).2, c ∈ sent.clauses) := by
  have h := partition_fold sent.clauses ([], [])
  constructor
  · intro c hc
    rcases h.1 c hc with h1 | h1
    · simp at h1
    · exact ⟨h1.1, h1.2⟩
  · intro c hc
    rcases h.2 c hc with h1 | h1
    · simp at h1
    · exact h1

/-! ### Facts about `DpllSearchSpace.get_successors` -/

theorem dpllSuccessors_eq (sig : List String) (bU bG : List Clause) (st : List Literal) :
    dpllSuccessors sig bU bG st =
      if st.length = sig.length then []
      else if memS ⟨[]⟩ (unitResolution (unionS bU (st.map (fun ℓ => ⟨[ℓ]⟩))) bG).2 then []
      else
        match sig[st.length]? with
        | none => []
        | some v =>
          match forcedLit (unitResolution (unionS bU (st.map (fun ℓ => ⟨[ℓ]⟩))) bG).1 v with
          | some ℓ => [st ++ [ℓ]]
          | none => [st ++ [⟨v, false⟩], st ++ [⟨v, true⟩]] := rfl

theorem forcedLit_symbol {u2 : List Clause} {v : String} {ℓ : Literal}
    (h : forcedLit u2 v = some ℓ) : ℓ.symbol = v := by
  unfold forcedLit at h
  rcases hfind : u2.reverse.find? (fun uc =>
      match uc.literals.head? with
      | some ℓ0 => ℓ0.symbol == v
      | none => false) with _ | uc
  · rw [hfind] at h
    simp at h
  · rw [hfind] at h
    have hh : uc.literals.head? = some ℓ := by simpa using h
    have hpred := List.find?_some hfind
    rw [hh] at hpred
    simpa using hpred

theorem forcedLit_sound {m : String → Bool} {u2 : List Clause} {v : String} {ℓ : Literal}
    (h : forcedLit u2 v = some ℓ)
    (hsat : ∀ c ∈ u2, checkClause m c = true)
    (hlen : ∀ c ∈ u2, c.literals.length = 1) : m ℓ.symbol = ℓ.polarity := by
  unfold forcedLit at h
  rcases hfind : u2.reverse.find? (fun uc =>
      match uc.literals.head? with
      | some ℓ0 => ℓ0.symbol == v
      | none => false) with _ | uc
  · rw [hfind] at h
    simp at h
  · rw [hfind] at h
    have hh : uc.literals.head? = some ℓ := by simpa using h
    have hmem : uc ∈ u2 := List.mem_reverse.1 (List.mem_of_find?_eq_some hfind)
    rcases List.length_eq_one.1 (hlen uc hmem) with ⟨a, ha⟩
    have hla : a = ℓ := by
      rw [ha] at hh
      simpa using hh
    subst hla
    have hchk := hsat uc hmem
    rw [checkClause_allEq (a := a) (by rw [ha]; simp) (by rw [ha]; simp)] at hchk
    simpa using hchk

theorem succ_facts (sig : List String) (bU bG : List Clause) (st : List Literal) :
    (∀ t ∈ dpllSuccessors sig bU bG st,
       ∃ ℓ : Literal, t = st ++ [ℓ] ∧ sig[st.length]? = some ℓ.symbol) ∧
    (dpllSuccessors sig bU bG st).length ≤ 2 := by
  rw [dpllSuccessors_eq]
  split
  · simp
  · split
    · simp
    · split
      · simp
      · next v hv =>
        split
        · next ℓf hf =>
          refine ⟨?_, by simp⟩
          intro t ht
          refine ⟨ℓf, List.mem_singleton.1 ht, ?_⟩
          rw [hv, forcedLit_symbol hf]
        · refine ⟨?_, by simp⟩
          intro t ht
          rcases List.mem_cons.1 ht with h | h
          · exact ⟨⟨v, false⟩, h, hv⟩
          · exact ⟨⟨v, true⟩, List.mem_singleton.1 h, hv⟩

theorem succ_nonempty_lt {sig : List String} {bU bG : List Clause} {st : List Literal}
    (h : dpllSuccessors sig bU bG st ≠ []) : st.length < sig.length := by
  rw [dpllSuccessors_eq] at h
  by_contra hcon
  have hge : sig.length ≤ st.length := Nat.le_of_not_lt hcon
  by_cases heq : st.length = sig.length
  · rw [if_pos heq] at h
    exact h rfl
  · rw [if_neg heq, List.getElem?_eq_none hge] at h
    split at h
    · exact h rfl
    · exact h rfl

theorem succ_covering {sig : List String} {bU bG : List Clause} {st : List Literal}
    {m : String → Bool}
    (hsatU : ∀ c ∈ bU, checkClause m c = true)
    (hsatG : ∀ c ∈ bG, checkClause m c = true)
    (hlenU : ∀ c ∈ bU, c.literals.length = 1)
    (hag : agreesM m st)
    (hlt : st.length < sig.length) :
    ∃ t ∈ dpllSuccessors sig bU bG st, agreesM m t := by
  rw [dpllSuccessors_eq, if_neg (Nat.ne_of_lt hlt)]
  have hU1sat : ∀ c ∈ unionS bU (st.map (fun ℓ => ⟨[ℓ]⟩)), checkClause m c = true := by
    intro c hc
    rcases mem_unionS hc with h | h
    · exact hsatU c h
    · rcases List.mem_map.1 h with ⟨ℓ, hℓ, hcl⟩
      rw [← hcl, checkClause_singleton]
      simp [hag ℓ hℓ]
  have hU1len : ∀ c ∈ unionS bU (st.map (fun ℓ => ⟨[ℓ]⟩)), c.literals.length = 1 := by
    intro c hc
    rcases mem_unionS hc with h | h
    · exact hlenU c h
    · rcases List.mem_map.1 h with ⟨ℓ, _, hcl⟩
      rw [← hcl]
      rfl
  have hp := unitResolution_forward (G := bG) hU1sat hsatG
  have hfalse : memS ⟨[]⟩ (unitResolution (unionS bU (st.map (fun ℓ => ⟨[ℓ]⟩))) bG).2
      = false := by
    by_contra hcon
    rw [Bool.not_eq_false] at hcon
    rcases memS_iff.1 hcon with ⟨d, hd, hde⟩
    have hdempty : d.literals = [] := setEq_empty_iff.1 hde
    have hsatd := hp.2 d hd
    have hdeq : d = ⟨[]⟩ := by
      cases d
      simp_all
    rw [hdeq, checkClause_empty] at hsatd
    exact Bool.false_ne_true hsatd
  rw [if_neg (by rw [hfalse]; simp)]
  split
  · next hnone =>
    rw [List.getElem?_eq_none_iff] at hnone
    omega
  · next v hv =>
    split
    · next ℓf hf =>
      have hlen1 := unitResolution_units_len (G := bG) hU1len
      have hml := forcedLit_sound hf hp.1 hlen1
      refine ⟨st ++ [ℓf], by simp, ?_⟩
      intro ℓ hℓ
      rcases List.mem_append.1 hℓ with h | h
      · exact hag ℓ h
      · rw [List.mem_singleton.1 h]
        exact hml
    · by_cases hmv : m v = true
      · refine ⟨st ++ [⟨v, true⟩], by simp, ?_⟩
        intro ℓ hℓ
        rcases List.mem_append.1 hℓ with h | h
        · exact hag ℓ h
        · rw [List.mem_singleton.1 h]
          exact hmv
      · refine ⟨st ++ [⟨v, false⟩], by simp, ?_⟩
        intro ℓ hℓ
        rcases List.mem_append.1 hℓ with h | h
        · exact hag ℓ h
        · rw [List.mem_singleton.1 h]
          simpa using hmv

/-! ### Valid states, goal states and the DFS measure -/

theorem validState_nil (sent : Cnf) : ValidState sent [] := by
  simp [ValidState]

theorem validState_le {sent : Cnf} {st : List Literal} (h : ValidState sent st) :
    st.length ≤ (signatureOf sent).length := by
  have := congrArg List.length h
  simp only [List.length_map, List.length_take] at this
  omega

theorem validState_succ {sent : Cnf} {st t : List Literal} (hv : ValidState sent st)
    (hshape : ∃ ℓ, t = st ++ [ℓ] ∧ (signatureOf sent)[st.length]? = some ℓ.symbol) :
    ValidState sent t := by
  rcases hshape with ⟨ℓ, rfl, hsym⟩
  unfold ValidState at hv ⊢
  rw [List.map_append, hv]
  have hlen : (st ++ [ℓ]).length = st.length + 1 := by simp
  rw [hlen, List.take_succ, hsym]
  rfl

theorem validState_full {sent : Cnf} {st : List Literal} (hv : ValidState sent st)
    (hfull : (signatureOf sent).length ≤ st.length) :
    st.map Literal.symbol = signatureOf sent := by
  have hle := validState_le hv
  have heq : st.length = (signatureOf sent).length := Nat.le_antisymm hle hfull
  unfold ValidState at hv
  rw [heq, List.take_length] at hv
  exact hv

theorem isGoal_of_full {sent : Cnf} {m : String → Bool} {st : List Literal}
    (hv : ValidState sent st)
    (hfull : (signatureOf sent).length ≤ st.length)
    (hag : agreesM m st) (hm : sent.checkModel m = true) :
    isGoal (signatureOf sent) sent st = true := by
  unfold isGoal
  rw [if_neg (by omega)]
  have hcm : sent.checkModel (modelFun (modelList st)) = sent.checkModel m := by
    refine checkModel_congr_syms ?_
    intro s hs
    have hsig : s ∈ signatureOf sent := mem_signature_iff.2 hs
    have hsyms := validState_full hv hfull
    have hsmem : s ∈ st.map Literal.symbol := by rw [hsyms]; exact hsig
    rcases List.mem_map.1 hsmem with ⟨ℓ, hℓ, hsym⟩
    have hnd : (st.map Literal.symbol).Nodup := by
      rw [hsyms]
      exact signature_nodup sent
    have hlook := lookupLast_modelList hnd hℓ
    rw [← hsym]
    unfold modelFun
    rw [hlook]
    simp [hag ℓ hℓ]
  rw [hcm]
  exact hm

theorem isGoal_checkModel {sig : List String} {sent : Cnf} {st : List Literal}
    (h : isGoal sig sent st = true) :
    sent.checkModel (modelFun (modelList st)) = true ∧ sig.length ≤ st.length := by
  unfold isGoal at h
  split at h
  · exact absurd h (by simp)
  · next hge => exact ⟨h, by omega⟩

theorem stackMeasure_cons (sig : List String) (s : List Literal)
    (rest : List (List Literal)) :
    stackMeasure sig (s :: rest) =
      3 ^ (sig.length + 1 - s.length) + stackMeasure sig rest := by
  simp [stackMeasure]

theorem stackMeasure_append (sig : List String) (a b : List (List Literal)) :
    stackMeasure sig (a ++ b) = stackMeasure sig a + stackMeasure sig b := by
  simp [stackMeasure]

theorem stackMeasure_reverse (sig : List String) (a : List (List Literal)) :
    stackMeasure sig a.reverse = stackMeasure sig a := by
  unfold stackMeasure
  rw [List.map_reverse, List.sum_reverse]

theorem stackMeasure_le_count {sig : List String} {k : Nat} :
    ∀ {ls : List (List Literal)},
      (∀ t ∈ ls, 3 ^ (sig.length + 1 - t.length) = k) →
      stackMeasure sig ls ≤ ls.length * k
  | [], _ => by simp [stackMeasure]
  | t :: ts, h => by
    rw [stackMeasure_cons, h t (List.mem_cons_self _ _)]
    have hih := stackMeasure_le_count (fun x hx => h x (List.mem_cons_of_mem _ hx))
    have : (t :: ts).length * k = ts.length * k + k := by
      rw [List.length_cons, Nat.succ_mul]
    omega

theorem stackMeasure_pos (sig : List String) (s : List Literal)
    (rest : List (List Literal)) : 0 < stackMeasure sig (s :: rest) := by
  rw [stackMeasure_cons]
  have := Nat.pos_pow_of_pos (sig.length + 1 - s.length) (show 0 < 3 by omega)
  omega

theorem stackMeasure_decrease (sig : List String) (bU bG : List Clause)
    (st : List Literal) (rest : List (List Literal)) :
    stackMeasure sig ((dpllSuccessors sig bU bG st).reverse ++ rest) <
      stackMeasure sig (st :: rest) := by
  rw [stackMeasure_append, stackMeasure_reverse, stackMeasure_cons]
  suffices h : stackMeasure sig (dpllSuccessors sig bU bG st) <
      3 ^ (sig.length + 1 - st.length) by omega
  by_cases hne : dpllSuccessors sig bU bG st = []
  · rw [hne]
    simp only [stackMeasure, List.map_nil, List.sum_nil]
    exact Nat.pos_pow_of_pos _ (by omega)
  · have hlt : st.length < sig.length := succ_nonempty_lt hne
    have hforms : ∀ t ∈ dpllSuccessors sig bU bG st,
        3 ^ (sig.length + 1 - t.length) = 3 ^ (sig.length - st.length) := by
      intro t ht
      rcases (succ_facts sig bU bG st).1 t ht with ⟨ℓ, rfl, _⟩
      have hlen : (st ++ [ℓ]).length = st.length + 1 := by simp
      rw [hlen]
      congr 1
      omega
    have hsum := stackMeasure_le_count hforms
    have hcount := (succ_facts sig bU bG st).2
    have hpow : 3 ^ (sig.length + 1 - st.length) = 3 * 3 ^ (sig.length - st.length) := by
      have : sig.length + 1 - st.length = (sig.length - st.length) + 1 := by omega
      rw [this, Nat.pow_succ, Nat.mul_comm]
    have hq := Nat.pos_pow_of_pos (sig.length - st.length) (show 0 < 3 by omega)
    have hle2 : stackMeasure sig (dpllSuccessors sig bU bG st) ≤
        2 * 3 ^ (sig.length - st.length) := by
      have := Nat.mul_le_mul_right (3 ^ (sig.length - st.length)) hcount
      omega
    omega

/-! ### The depth-first search of `dpll` -/

theorem dfsLoop_sound {sig : List String} {sent : Cnf} {bU bG : List Clause} :
    ∀ (fuel : Nat) (stack : List (List Literal)) (st : List Literal),
      dfsLoop sig sent bU bG fuel stack = some st → isGoal sig sent st = true
  | 0, stack, st, h => by simp [dfsLoop] at h
  | fuel+1, [], st, h => by simp [dfsLoop] at h
  | fuel+1, s :: rest, st, h => by
    unfold dfsLoop at h
    split at h
    · next hg =>
      injection h with h
      exact h ▸ hg
    · exact dfsLoop_sound fuel _ st h

theorem dfsLoop_valid {sent : Cnf} {bU bG : List Clause} :
    ∀ (fuel : Nat) (stack : List (List Literal)) (st : List Literal),
      (∀ s ∈ stack, ValidState sent s) →
      dfsLoop (signatureOf sent) sent bU bG fuel stack = some st → ValidState sent st
  | 0, stack, st, _, h => by simp [dfsLoop] at h
  | fuel+1, [], st, _, h => by simp [dfsLoop] at h
  | fuel+1, s :: rest, st, hv, h => by
    unfold dfsLoop at h
    split at h
    · injection h with h
      exact h ▸ hv s (List.mem_cons_self _ _)
    · refine dfsLoop_valid fuel _ st ?_ h
      intro t ht
      rcases List.mem_append.1 ht with h1 | h1
      · have h2 := List.mem_reverse.1 h1
        exact validState_succ (hv s (List.mem_cons_self _ _))
          ((succ_facts _ bU bG s).1 t h2)
      · exact hv t (List.mem_cons_of_mem _ h1)

theorem dfsLoop_complete {sent : Cnf} {m : String → Bool} {bU bG : List Clause}
    (hm : sent.checkModel m = true)
    (hbUsat : ∀ c ∈ bU, checkClause m c = true)
    (hbGsat : ∀ c ∈ bG, checkClause m c = true)
    (hbUlen : ∀ c ∈ bU, c.literals.length = 1) :
    ∀ (fuel : Nat) (stack : List (List Literal)),
      stackMeasure (signatureOf sent) stack ≤ fuel →
      (∀ s ∈ stack, ValidState sent s) →
      (∃ s ∈ stack, agreesM m s) →
      dfsLoop (signatureOf sent) sent bU bG fuel stack ≠ none
  | 0, stack, hfuel, _, hex => by
    rcases hex with ⟨s, hs, _⟩
    rcases stack with _ | ⟨s0, rest⟩
    · exact absurd hs (List.not_mem_nil s)
    · have := stackMeasure_pos (signatureOf sent) s0 rest
      omega
  | fuel+1, stack, hfuel, hv, hex => by
    rcases stack with _ | ⟨s0, rest⟩
    · rcases hex with ⟨s, hs, _⟩
      exact absurd hs (List.not_mem_nil s)
    · unfold dfsLoop
      split
      · simp
      · next hg =>
        have hdec := stackMeasure_decrease (signatureOf sent) bU bG s0 rest
        refine dfsLoop_complete hm hbUsat hbGsat hbUlen fuel _ (by omega) ?_ ?_
        · intro t ht
          rcases List.mem_append.1 ht with h1 | h1
          · exact validState_succ (hv s0 (List.mem_cons_self _ _))
              ((succ_facts _ bU bG s0).1 t (List.mem_reverse.1 h1))
          · exact hv t (List.mem_cons_of_mem _ h1)
        · rcases hex with ⟨sx, hsx, hagx⟩
          rcases List.mem_cons.1 hsx with h1 | h1
          · subst h1
            have hvs := hv sx (List.mem_cons_self _ _)
            have hlt : sx.length < (signatureOf sent).length := by
              rcases Nat.lt_or_ge sx.length (signatureOf sent).length with h | h
              · exact h
              · exact absurd (isGoal_of_full hvs h hagx hm) (by simpa using hg)
            rcases succ_covering hbUsat hbGsat hbUlen hagx hlt with ⟨t, ht, hagt⟩
            exact ⟨t, List.mem_append_left _ (List.mem_reverse.2 ht), hagt⟩
          · exact ⟨sx, List.mem_append_right _ h1, hagx⟩

/-! ### Facts about `DpllSearchSpace.__init__` -/

theorem dpllBase_sat {sent : Cnf} {m : String → Bool} (hm : sent.checkModel m = true) :
    (∀ c ∈ (dpllBase sent).1, checkClause m c = true) ∧
      (∀ c ∈ (dpllBase sent).2, checkClause m c = true) := by
  have hall : ∀ c ∈ sent.clauses, checkClause m c = true := by
    intro c hc
    exact List.all_eq_true.1 hm c hc
  unfold dpllBase
  exact unitResolution_forward
    (fun c hc => hall c ((partition_mem sent).1 c hc).1)
    (fun c hc => hall c ((partition_mem sent).2 c hc))

theorem dpllBase_units_len (sent : Cnf) :
    ∀ c ∈ (dpllBase sent).1, c.literals.length = 1 := by
  unfold dpllBase
  exact unitResolution_units_len (fun c hc => ((partition_mem sent).1 c hc).2)

theorem dpll_ne_none_of_sat {sent : Cnf} {m : String → Bool}
    (hm : sent.checkModel m = true) : dpll sent ≠ none := by
  have hbase := dpllBase_sat hm
  have hmeas : stackMeasure (signatureOf sent) [[]] =
      3 ^ ((signatureOf sent).length + 1) := by
    simp [stackMeasure]
  have h := dfsLoop_complete hm hbase.1 hbase.2 (dpllBase_units_len sent)
    (3 ^ ((signatureOf sent).length + 1)) [[]]
    (by rw [hmeas]) (by simp [validState_nil])
    ⟨[], List.mem_singleton.2 rfl, fun ℓ hℓ => absurd hℓ (List.not_mem_nil ℓ)⟩
  unfold dpll
  rcases hdfs : dfsLoop (signatureOf sent) sent (dpllBase sent).1 (dpllBase sent).2
      (3 ^ ((signatureOf sent).length + 1)) [[]] with _ | st
  · exact absurd hdfs h
  · simp

theorem dpll_some_props {sent : Cnf} {al : List (String × Bool)}
    (h : dpll sent = some al) :
    (∀ sym ∈ sent.symbolsList, (lookupLast al sym).isSome = true) ∧
      sent.checkModel (modelFun al) = true := by
  unfold dpll at h
  rcases hdfs : dfsLoop (signatureOf sent) sent (dpllBase sent).1 (dpllBase sent).2
      (3 ^ ((signatureOf sent).length + 1)) [[]] with _ | st
  · rw [hdfs] at h
    exact absurd h (by simp)
  · rw [hdfs] at h
    have hal : al = modelList st := by
      injection h with h
      exact h.symm
    subst hal
    have hgoal := dfsLoop_sound _ _ _ hdfs
    have hvalid := dfsLoop_valid _ _ _ (by simp [validState_nil]) hdfs
    have hprops := isGoal_checkModel hgoal
    have hsyms := validState_full hvalid hprops.2
    have hnd : (st.map Literal.symbol).Nodup := by
      rw [hsyms]
      exact signature_nodup sent
    refine ⟨?_, hprops.1⟩
    intro sym hsym
    have hmem : sym ∈ st.map Literal.symbol := by
      rw [hsyms]
      exact mem_signature_iff.2 hsym
    rcases List.mem_map.1 hmem with ⟨ℓ, hℓ, hs⟩
    rw [← hs, lookupLast_modelList hnd hℓ]
    rfl

/-! ### Claim theorems -/

/-- C1: For every CNF sentence, `dpll` returns `none` exactly when no
assignment of the sentence's symbols satisfies the sentence; whenever it
returns a model, that model assigns a value to every symbol of the
sentence and `check_model` holds under it.  In particular, on
`(A || B) && (!A || C) && (!B || C)` the returned model has `C = true`,
and with the unit clause `!C` added `dpll` returns `none`. -/
theorem dpll_correct :
    (∀ sent : Cnf,
      (dpll sent = none ↔ ¬∃ m : String → Bool, sent.checkModel m = true) ∧
      (∀ al, dpll sent = some al →
        (∀ sym ∈ sent.symbolsList, (lookupLast al sym).isSome = true) ∧
          sent.checkModel (modelFun al) = true)) ∧
    (∃ al, dpll toySent = some al ∧ lookupLast al "C" = some true) ∧
    dpll toySentNegC = none := by
  refine ⟨fun sent => ⟨⟨?_, ?_⟩, fun al h => dpll_some_props h⟩, ?_, ?_⟩
  · intro hnone ⟨m, hm⟩
    exact dpll_ne_none_of_sat hm hnone
  · intro hno
    rcases hd : dpll sent with _ | al
    · rfl
    · exact absurd ⟨modelFun al, (dpll_some_props hd).2⟩ hno
  · exact ⟨[("A", true), ("B", true), ("C", true)], by decide, by decide⟩
  · decide

/-- Witness for C1: the general theorem applied to the toy sentence and
the model `dpll` actually returns for it. -/
theorem dpll_correct_witness :
    (∀ sym ∈ toySent.symbolsList,
      (lookupLast [("A", true), ("B", true), ("C", true)] sym).isSome = true) ∧
      toySent.checkModel (modelFun [("A", true), ("B", true), ("C", true)]) = true :=
  (dpll_correct.1 toySent).2 [("A", true), ("B", true), ("C", true)] (by decide)

/-- C3: `unit_resolve` returns `none` exactly when the clause has more
than one literal and one of its literals is a unit clause of `U`;
otherwise it returns the clause of exactly those literals whose
negations are not unit clauses of `U`.  Resolving `!A || !B || C`
against units `{A, !C}` gives exactly `!B`. -/
theorem unitResolve_spec :
    (∀ (U : List Clause) (cl : Clause),
      (unitResolve U cl = none ↔
        1 < cl.literals.length ∧ ∃ ℓ ∈ cl.literals, memS ⟨[ℓ]⟩ U = true)) ∧
    (∀ (U : List Clause) (cl : Clause),
      ¬(1 < cl.literals.length ∧ ∃ ℓ ∈ cl.literals, memS ⟨[ℓ]⟩ U = true) →
      unitResolve U cl =
        some ⟨cl.literals.filter (fun ℓ => !(memS ⟨[ℓ.negate]⟩ U))⟩) ∧
    unitResolve [cC "A", cC "!C"] (cC "!A || !B || C") = some (cC "!B") := by
  refine ⟨?_, ?_, by decide⟩
  · intro U cl
    rw [unitResolve_eq]
    by_cases h : 1 < cl.literals.length ∧ ∃ ℓ ∈ cl.literals, memS ⟨[ℓ]⟩ U = true
    · rw [if_pos h]
      exact ⟨fun _ => h, fun _ => rfl⟩
    · rw [if_neg h]
      exact ⟨fun hc => absurd hc (by simp), fun hc => absurd hc h⟩
  · intro U cl h
    rw [unitResolve_eq, if_neg h]

/-- Witness for C3: the redundancy condition fails for the unit clause
`!B` against units `{A, !C}`, so the filtered clause is returned. -/
theorem unitResolve_spec_witness :
    unitResolve [cC "A", cC "!C"] (cC "!B") =
      some ⟨(cC "!B").literals.filter
        (fun ℓ => !(memS ⟨[ℓ.negate]⟩ [cC "A", cC "!C"]))⟩ :=
  unitResolve_spec.2.1 [cC "A", cC "!C"] (cC "!B") (by decide)

/-- C5: `unit_resolution` on the unit clauses `{A}` and `{!A}` (with no
regular clauses) derives the empty clause `FALSE`, detectable both by
list membership and by the set membership test calling code uses. -/
theorem unitResolution_empty_clause :
    Clause.mk [] ∈ (unitResolution [cC "A", cC "!A"] []).2 ∧
      memS ⟨[]⟩ (unitResolution [cC "A", cC "!A"] []).2 = true := by
  constructor <;> decide

/-- C6: across the rounds of `unit_resolution`'s loop the unit-clause
set never shrinks (each round only appends); the loop reaches its
fixpoint within `urFuel` rounds, so any extra fuel leaves the result
unchanged (the `while` loop terminates); and the final unit-clause set
is bounded by the input units plus the distinct literals of the input. -/
theorem unitResolution_terminates :
    (∀ U G : List Clause, ∃ E, (urStep U G).1 = U ++ E) ∧
    (∀ (U G : List Clause) (k : Nat),
      urLoop (urFuel (dedupS U) (dedupS G) + k) (dedupS U, dedupS G) =
        unitResolution U G) ∧
    (∀ U G : List Clause,
      (unitResolution U G).1.length ≤
        (dedupS U).length + (allLitsOf (dedupS U ++ dedupS G)).dedup.length) := by
  refine ⟨fun U G => ?_, fun U G k => unitResolution_stable U G k,
    fun U G => unitResolution_units_bound U G⟩
  rcases urStep_fst_append U G with ⟨E, hE, _⟩
  exact ⟨E, hE⟩

/-- C10: `Reveal.__eq__` compares the type-name string `"Reveal"` with
the class object `Reveal`; that comparison is always `False` in Python,
so equality of `Reveal` moves never holds — even for identical
coordinates. -/
theorem reveal_eq_never (r1 c1 r2 c2 : Int) :
    Reveal.eq ⟨r1, c1⟩ ⟨r2, c2⟩ = false := rfl

/-- Counterexample to C4 as stated: with `U = {!A}` and the two-literal
clause `!A || A` (symbol `A` listed with both polarities, positive
last), `unit_resolution` drops the clause as redundant, but under
`check_model`'s last-occurrence semantics that clause is equivalent to
`A` alone, so the assignment `A = false` satisfies the output clause
sets and not the input ones. -/
theorem unitResolution_equiv_counterexample :
    allSatB (fun _ => false)
        ([Clause.mk [⟨"A", false⟩]] ++ [Clause.mk [⟨"A", false⟩, ⟨"A", true⟩]]) = false ∧
      allSatB (fun _ => false)
        ((unitResolution [Clause.mk [⟨"A", false⟩]]
            [Clause.mk [⟨"A", false⟩, ⟨"A", true⟩]]).1 ++
          (unitResolution [Clause.mk [⟨"A", false⟩]]
            [Clause.mk [⟨"A", false⟩, ⟨"A", true⟩]]).2) = true := by
  constructor <;> decide

/-- C4 amended: for inputs in which no clause lists the same symbol with
both polarities, the clause sets returned by `unit_resolution` are
logically equivalent to the input: an assignment satisfies every input
clause iff it satisfies every output clause. -/
theorem unitResolution_equiv (U G : List Clause) (m : String → Bool)
    (hcons : ∀ cl ∈ U ++ G, consistentB cl = true) :
    allSatB m (U ++ G) = true ↔
      allSatB m ((unitResolution U G).1 ++ (unitResolution U G).2) = true := by
  have hUc : ∀ c ∈ U, consistentB c = true :=
    fun c hc => hcons c (List.mem_append_left _ hc)
  have hGc : ∀ c ∈ G, consistentB c = true :=
    fun c hc => hcons c (List.mem_append_right _ hc)
  constructor
  · intro h
    have hU : ∀ u ∈ U, checkClause m u = true :=
      fun u hu => List.all_eq_true.1 h u (List.mem_append_left _ hu)
    have hG : ∀ g ∈ G, checkClause m g = true :=
      fun g hg => List.all_eq_true.1 h g (List.mem_append_right _ hg)
    have hf := unitResolution_forward hU hG
    refine List.all_eq_true.2 (fun c hc => ?_)
    rcases List.mem_append.1 hc with h1 | h1
    · exact hf.1 c h1
    · exact hf.2 c h1
  · intro h
    have h1 : ∀ c ∈ (unitResolution U G).1, checkClause m c = true :=
      fun c hc => List.all_eq_true.1 h c (List.mem_append_left _ hc)
    have h2 : ∀ c ∈ (unitResolution U G).2, checkClause m c = true :=
      fun c hc => List.all_eq_true.1 h c (List.mem_append_right _ hc)
    have hb := unitResolution_backward hUc hGc h1 h2
    refine List.all_eq_true.2 (fun c hc => ?_)
    rcases List.mem_append.1 hc with hm1 | hm1
    · exact hb.1 c hm1
    · exact hb.2 c hm1

/-- Witness for C4: the equivalence at the concrete input
`U = {A, !C}`, `G = {!A || !B || C}` under the assignment making only
`A` true. -/
theorem unitResolution_equiv_witness :
    allSatB (fun s => s == "A") ([cC "A", cC "!C"] ++ [cC "!A || !B || C"]) = true ↔
      allSatB (fun s => s == "A")
        ((unitResolution [cC "A", cC "!C"] [cC "!A || !B || C"]).1 ++
          (unitResolution [cC "A", cC "!C"] [cC "!A || !B || C"]).2) = true :=
  unitResolution_equiv [cC "A", cC "!C"] [cC "!A || !B || C"] (fun s => s == "A")
    (by decide)

/-- Counterexample to C7 as stated: the single-clause sentence whose
clause lists `A` positively and then negatively has a literal whose
polarity matches the assignment `A = true` (the positive one), yet
`check_model` is false, because the clause dictionary keeps only the
last literal per symbol. -/
theorem checkModel_spec_counterexample :
    ¬((Cnf.mk [Clause.mk [⟨"A", true⟩, ⟨"A", false⟩]]).checkModel (fun _ => true)
        = true ↔
      ∀ cl ∈ (Cnf.mk [Clause.mk [⟨"A", true⟩, ⟨"A", false⟩]]).clauses,
        ∃ ℓ ∈ cl.literals, (fun _ => true) ℓ.symbol = ℓ.polarity) := by
  decide

/-- C7 amended: for sentences in which no clause lists the same symbol
with both polarities, `check_model` is true iff every clause contains a
literal whose polarity equals the assignment's value for its symbol; a
sentence containing the zero-literal clause is unsatisfied by every
assignment (unconditionally); and the concrete checks on `A || !B`. -/
theorem checkModel_spec :
    (∀ (sent : Cnf) (m : String → Bool),
      (∀ cl ∈ sent.clauses, consistentB cl = true) →
      (sent.checkModel m = true ↔
        ∀ cl ∈ sent.clauses, ∃ ℓ ∈ cl.literals, m ℓ.symbol = ℓ.polarity)) ∧
    (∀ (sent : Cnf) (m : String → Bool), Clause.mk [] ∈ sent.clauses →
      sent.checkModel m = false) ∧
    (sentenceC ["A || !B"]).checkModel (fun _ => false) = true ∧
    (sentenceC ["A || !B"]).checkModel (fun s => s == "B") = false := by
  refine ⟨?_, ?_, by decide, by decide⟩
  · intro sent m hcons
    unfold Cnf.checkModel
    rw [List.all_eq_true]
    constructor
    · intro h cl hcl
      have := h cl hcl
      rw [checkClause_of_consistent (hcons cl hcl)] at this
      rcases List.any_eq_true.1 this with ⟨ℓ, hℓ, hml⟩
      exact ⟨ℓ, hℓ, by simpa using hml⟩
    · intro h cl hcl
      rw [checkClause_of_consistent (hcons cl hcl)]
      rcases h cl hcl with ⟨ℓ, hℓ, hml⟩
      exact List.any_eq_true.2 ⟨ℓ, hℓ, by simp [hml]⟩
  · intro sent m hmem
    rw [Bool.eq_false_iff]
    intro hcon
    have := List.all_eq_true.1 hcon _ hmem
    rw [checkClause_empty] at this
    exact Bool.false_ne_true this

/-- Witness for C7: the equivalence at the sentence `A || !B` and the
all-false assignment. -/
theorem checkModel_spec_witness :
    (sentenceC ["A || !B"]).checkModel (fun _ => false) = true ↔
      ∀ cl ∈ (sentenceC ["A || !B"]).clauses,
        ∃ ℓ ∈ cl.literals, (fun _ => false) ℓ.symbol = ℓ.polarity :=
  checkModel_spec.1 (sentenceC ["A || !B"]) (fun _ => false) (by decide)

/-- Counterexample to C8 as stated: the sentence whose only clause lists
`A` positively then negatively is NOT satisfied under the assignment
`A = true`, although the claim asserts a tautological clause is
satisfied under every complete assignment. -/
theorem tautology_counterexample :
    (Cnf.mk [Clause.mk [⟨"A", true⟩, ⟨"A", false⟩]]).checkModel (fun _ => true)
      = false := by
  decide

/-- C8 amended: `check_model` evaluates a clause that lists both
polarities of a symbol through the polarity of the *last* literal with
that symbol: the single-clause sentence is satisfied exactly when the
assignment matches that last polarity, not universally. -/
theorem tautology_lastPol (s : String) (m : String → Bool) :
    (Cnf.mk [Clause.mk [⟨s, true⟩, ⟨s, false⟩]]).checkModel m = (m s == false) ∧
      (Cnf.mk [Clause.mk [⟨s, false⟩, ⟨s, true⟩]]).checkModel m = (m s == true) := by
  constructor <;>
    simp [Cnf.checkModel, checkClause, Clause.lastLit, List.find?]

/-- Counterexample to C9 as stated: the `Clause` constructor stores the
literal sequence as given, so the clause built from `[A, !B, A]`
contains the pair `(A, true)` twice — duplicates are not discarded. -/
theorem clause_dedup_counterexample :
    ¬((Clause.mk [⟨"A", true⟩, ⟨"B", false⟩, ⟨"A", true⟩]).literals.count
        ⟨"A", true⟩ ≤ 1) := by
  decide

/-- C9 amended: the constructor keeps the literal list including
duplicates (`Clause([A, !B, A])` has three literals, `(A, true)` twice);
two clauses with the same literal set are equal under the set-based
`__eq__`; but `__hash__` hashes `tuple(sorted(literals))`, which also
keeps duplicates, so the two equal clauses feed different tuples to
`hash` and identical hash values are not guaranteed. -/
theorem clause_eq_set_based :
    (Clause.mk [⟨"A", true⟩, ⟨"B", false⟩, ⟨"A", true⟩]).literals.length = 3 ∧
    (Clause.mk [⟨"A", true⟩, ⟨"B", false⟩, ⟨"A", true⟩]).literals.count
      ⟨"A", true⟩ = 2 ∧
    Clause.setEq (Clause.mk [⟨"A", true⟩, ⟨"B", false⟩, ⟨"A", true⟩])
      (Clause.mk [⟨"B", false⟩, ⟨"A", true⟩]) = true ∧
    hashInput (Clause.mk [⟨"A", true⟩, ⟨"B", false⟩, ⟨"A", true⟩]) ≠
      hashInput (Clause.mk [⟨"B", false⟩, ⟨"A", true⟩]) := by
  refine ⟨by decide, by decide, by decide, by decide⟩

/-! ### The exactly-k encoding of the agent -/

theorem forall_sublist_exists_false_iff {α : Type} (p : α → Bool) (l : List α) (r : Nat) :
    (∀ s ∈ List.sublistsLen r l, ∃ a ∈ s, p a = false) ↔ l.countP p < r := by
  constructor
  · intro h
    by_contra hcon
    have hge : r ≤ l.countP p := Nat.le_of_not_lt hcon
    have hsub : List.Sublist ((l.filter p).take r) l :=
      List.Sublist.trans (List.take_sublist r (l.filter p)) (List.filter_sublist l)
    have hlen : ((l.filter p).take r).length = r := by
      rw [List.length_take, ← List.countP_eq_length_filter]
      omega
    rcases h _ (List.mem_sublistsLen.2 ⟨hsub, hlen⟩) with ⟨a, ha, hpa⟩
    have : p a = true :=
      List.of_mem_filter (List.mem_of_mem_take ha)
    rw [this] at hpa
    simp at hpa
  · intro h s hs
    rcases List.mem_sublistsLen.1 hs with ⟨hsub, hlen⟩
    by_contra hcon
    have hall : ∀ a ∈ s, p a = true := by
      intro a ha
      rcases Bool.eq_false_or_eq_true (p a) with h1 | h1
      · exact h1
      · exact absurd ⟨a, ha, h1⟩ hcon
    have hfe : s.filter p = s := List.filter_eq_self.2 hall
    have : List.Sublist (s.filter p) (l.filter p) := List.Sublist.filter p hsub
    rw [hfe] at this
    have := this.length_le
    rw [hlen, ← List.countP_eq_length_filter] at this
    omega

theorem countP_not_add {α : Type} (p : α → Bool) :
    ∀ l : List α, l.countP p + l.countP (fun a => !(p a)) = l.length
  | [] => rfl
  | x :: t => by
    rw [List.countP_cons, List.countP_cons, List.length_cons]
    have ht := countP_not_add p t
    rcases hx : p x with _ | _ <;> simp [hx] <;> omega

theorem consistent_of_const_polarity {cl : Clause} {b : Bool}
    (h : ∀ ℓ ∈ cl.literals, ℓ.polarity = b) : consistentB cl = true :=
  consistentB_iff.2 (fun a ha c hc _ => (h a ha).trans (h c hc).symm)

theorem checkClause_mapped (m : String → Bool) (b : Bool) (combo : List (Nat × Nat)) :
    checkClause m ⟨combo.map (fun rc => ⟨encodeCell rc, b⟩)⟩ =
      combo.any (fun rc => m (encodeCell rc) == b) := by
  have hc : consistentB ⟨combo.map (fun rc => ⟨encodeCell rc, b⟩)⟩ = true := by
    refine consistent_of_const_polarity (b := b) ?_
    intro ℓ hℓ
    rcases List.mem_map.1 hℓ with ⟨rc, _, hrc⟩
    rw [← hrc]
  rw [checkClause_of_consistent hc]
  unfold anyLit
  clear hc
  induction combo with
  | nil => rfl
  | cons x t ih =>
    rw [List.map_cons, List.any_cons, List.any_cons, ih]

/-- C2: for distinct cells and `0 < k < n`, `at_most_clauses` emits one
clause of negated mine literals per `(k+1)`-subset (`C(n, k+1)` clauses)
and `at_least_clauses` one clause of positive literals per
`(n-k+1)`-subset (`C(n, n-k+1)` clauses); an assignment of the mine
variables satisfies every clause of both families exactly when `k` of
the `n` variables are true. -/
theorem exactly_k_encoding (row col : Nat) (cells : List (Nat × Nat)) (k : Nat)
    (m : String → Bool) (hnd : cells.Nodup) (h0 : 0 < k) (hn : k < cells.length) :
    (atMostClauses row col k cells).length = (cells.length).choose (k+1) ∧
    (atLeastClauses row col k cells).length =
      (cells.length).choose (cells.length - k + 1) ∧
    (allSatB m (atMostClauses row col k cells ++ atLeastClauses row col k cells)
        = true ↔
      cells.countP (fun rc => m (encodeCell rc)) = k) := by
  have hcount : cells.countP (fun rc => m (encodeCell rc)) +
      cells.countP (fun a => !(m (encodeCell a))) = cells.length :=
    countP_not_add _ cells
  refine ⟨?_, ?_, ?_⟩
  · unfold atMostClauses
    rw [List.length_map, List.length_sublistsLen]
  · unfold atLeastClauses
    rw [List.length_map, List.length_sublistsLen]
  · constructor
    · intro h
      have hAM : ∀ cl ∈ atMostClauses row col k cells, checkClause m cl = true :=
        fun cl hc => List.all_eq_true.1 h cl (List.mem_append_left _ hc)
      have hAL : ∀ cl ∈ atLeastClauses row col k cells, checkClause m cl = true :=
        fun cl hc => List.all_eq_true.1 h cl (List.mem_append_right _ hc)
      have h1 : ∀ s ∈ List.sublistsLen (k+1) cells,
          ∃ a ∈ s, (fun rc => m (encodeCell rc)) a = false := by
        intro s hs
        have hcl := hAM _ (List.mem_map_of_mem _ hs)
        rw [checkClause_mapped] at hcl
        rcases List.any_eq_true.1 hcl with ⟨rc, hrc, hb⟩
        exact ⟨rc, hrc, by simpa using hb⟩
      have h2 : ∀ s ∈ List.sublistsLen (cells.length - k + 1) cells,
          ∃ a ∈ s, (fun a => !(m (encodeCell a))) a = false := by
        intro s hs
        have hcl := hAL _ (List.mem_map_of_mem _ hs)
        rw [checkClause_mapped] at hcl
        rcases List.any_eq_true.1 hcl with ⟨rc, hrc, hb⟩
        refine ⟨rc, hrc, ?_⟩
        have : m (encodeCell rc) = true := by simpa using hb
        simp [this]
      have hlt1 : cells.countP (fun rc => m (encodeCell rc)) < k + 1 :=
        (forall_sublist_exists_false_iff _ cells (k+1)).1 h1
      have hlt2 : cells.countP (fun a => !(m (encodeCell a))) <
          cells.length - k + 1 :=
        (forall_sublist_exists_false_iff _ cells (cells.length - k + 1)).1 h2
      omega
    · intro h
      have h1 : ∀ s ∈ List.sublistsLen (k+1) cells,
          ∃ a ∈ s, (fun rc => m (encodeCell rc)) a = false :=
        (forall_sublist_exists_false_iff _ cells (k+1)).2 (by omega)
      have h2 : ∀ s ∈ List.sublistsLen (cells.length - k + 1) cells,
          ∃ a ∈ s, (fun a => !(m (encodeCell a))) a = false :=
        (forall_sublist_exists_false_iff _ cells (cells.length - k + 1)).2 (by omega)
      refine List.all_eq_true.2 (fun cl hcl => ?_)
      rcases List.mem_append.1 hcl with hm1 | hm1
      · rcases List.mem_map.1 hm1 with ⟨s, hs, hmap⟩
        rw [← hmap, checkClause_mapped]
        rcases h1 s hs with ⟨a, ha, hpa⟩
        refine List.any_eq_true.2 ⟨a, ha, ?_⟩
        have hpa2 : m (encodeCell a) = false := hpa
        simp [hpa2]
      · rcases List.mem_map.1 hm1 with ⟨s, hs, hmap⟩
        rw [← hmap, checkClause_mapped]
        rcases h2 s hs with ⟨a, ha, hpa⟩
        refine List.any_eq_true.2 ⟨a, ha, ?_⟩
        have hpa2 : m (encodeCell a) = true := by simpa using hpa
        simp [hpa2]

/-- Witness for C2: three distinct cells, `k = 1`, and the assignment
making exactly the first cell a mine. -/
theorem exactly_k_encoding_witness :
    (atMostClauses 0 0 1 [(0, 0), (0, 1), (1, 1)]).length = Nat.choose 3 2 ∧
    (atLeastClauses 0 0 1 [(0, 0), (0, 1), (1, 1)]).length = Nat.choose 3 3 ∧
    (allSatB (fun s => s == "B_0_0")
        (atMostClauses 0 0 1 [(0, 0), (0, 1), (1, 1)] ++
          atLeastClauses 0 0 1 [(0, 0), (0, 1), (1, 1)]) = true ↔
      List.countP (fun rc => (fun s => s == "B_0_0") (encodeCell rc))
        [(0, 0), (0, 1), (1, 1)] = 1) :=
  exactly_k_encoding 0 0 [(0, 0), (0, 1), (1, 1)] 1 (fun s => s == "B_0_0")
    (by decide) (by decide) (by decide)
